import Mathlib

/-!
# Verification of `llm_cursor_tool.py` against its specification

A shallow embedding of the core of the repository `stwich_run`
(file `src/llm_cursor_tool.py`): the JSON-extraction pipeline
`ScreenAnalyzer._parse_response` (Python `json.loads` plus the two
`re.search` fallbacks), the pointer dispatch `CursorController.move_and_click`
and `CursorController.execute`, the lifecycle `AutomationEngine.start/stop`
and its background loop `AutomationEngine._loop`, the tray / hotkey trigger
handlers, and `ScreenAnalyzer.encode_image`.

Machine strings are `List Char`; the Python `json` module's value space is
the inductive `Json` below.  JSON numbers keep the matched lexeme (Python
would convert to `int`/`float`; no claim below depends on IEEE float
values, and `NaN`/`Infinity`/`-Infinity` — accepted by Python's decoder —
are kept as lexemes too).  Decoded JSON strings are kept as lists of code
points (`List Nat`), because Python strings may hold lone surrogates that
`Char` cannot represent.
-/

/-- The value space of Python's `json.loads`.  `null` doubles as Python
`None` (which is exactly how `json.loads` maps JSON `null`). -/
inductive Json where
  | null : Json
  | bool : Bool → Json
  | num : List Char → Json
  | str : List Nat → Json
  | arr : List Json → Json
  | obj : List (List Nat × Json) → Json

/-- Code points of a Lean string, for building object keys and Python
string values. -/
def strCodes (s : String) : List Nat := s.data.map Char.toNat

/-- JSON whitespace as accepted by Python's `json` decoder:
space, tab, newline, carriage return. -/
def isJsonWs (c : Char) : Bool :=
  c = ' ' || c = '\t' || c = '\n' || c = '\r'

/-- Skip JSON whitespace (the decoder's `_w(s, end).end()`). -/
def skipWs (cs : List Char) : List Char := cs.dropWhile isJsonWs

/-- Value of a single hexadecimal digit, as required by a `\uXXXX` escape. -/
def hexDigitVal (c : Char) : Option Nat :=
  if '0' ≤ c ∧ c ≤ '9' then some (c.toNat - '0'.toNat)
  else if 'a' ≤ c ∧ c ≤ 'f' then some (c.toNat - 'a'.toNat + 10)
  else if 'A' ≤ c ∧ c ≤ 'F' then some (c.toNat - 'A'.toNat + 10)
  else none

/-- Read exactly four hexadecimal digits (the body of a `\uXXXX` escape). -/
def hex4 : List Char → Option (Nat × List Char)
  | a :: b :: c :: d :: rest =>
    match hexDigitVal a, hexDigitVal b, hexDigitVal c, hexDigitVal d with
    | some w, some x, some y, some z =>
      some (w * 4096 + x * 256 + y * 16 + z, rest)
    | _, _, _, _ => none
  | _ => none

/-- Greedy run of decimal digits (the `\d*` pieces of the decoder's
number regex). -/
def spanDigits : List Char → List Char × List Char
  | [] => ([], [])
  | c :: rest =>
    if c.isDigit then
      let (a, b) := spanDigits rest
      (c :: a, b)
    else ([], c :: rest)

/-- The optional exponent group `([eE][-+]?\d+)?` of the decoder's number
regex: extends the lexeme only when the whole group matches. -/
def numExp (lex : List Char) (cs : List Char) : List Char × List Char :=
  match cs with
  | e :: rest =>
    if e = 'e' ∨ e = 'E' then
      match rest with
      | s :: rest2 =>
        if s = '+' ∨ s = '-' then
          match spanDigits rest2 with
          | ([], _) => (lex, cs)
          | (ds, r) => (lex ++ e :: s :: ds, r)
        else
          match spanDigits rest with
          | ([], _) => (lex, cs)
          | (ds, r) => (lex ++ e :: ds, r)
      | [] => (lex, cs)
    else (lex, cs)
  | [] => (lex, cs)

/-- The optional fraction group `(\.\d+)?` of the number regex, then the
exponent group. -/
def numFrac (lex : List Char) (cs : List Char) : List Char × List Char :=
  match cs with
  | '.' :: rest =>
    match spanDigits rest with
    | ([], _) => numExp lex cs
    | (ds, r) => numExp (lex ++ '.' :: ds) r
  | _ => numExp lex cs

/-- Integer part `(?:0|[1-9]\d*)` of the number regex, then fraction and
exponent. -/
def numAfterSign (cs : List Char) : Option (List Char × List Char) :=
  match cs with
  | [] => none
  | c :: rest =>
    if c = '0' then some (numFrac ['0'] rest)
    else if c.isDigit then
      let (ds, r) := spanDigits rest
      some (numFrac (c :: ds) r)
    else none

/-- The decoder's number token: Python `json`'s
`(-?(?:0|[1-9]\d*))(\.\d+)?([eE][-+]?\d+)?` matched at the current
position, returning the lexeme and the rest. -/
def parseNumberTok (cs : List Char) : Option (List Char × List Char) :=
  match cs with
  | '-' :: rest =>
    match numAfterSign rest with
    | some (l, r) => some ('-' :: l, r)
    | none => none
  | _ => numAfterSign cs

/-- Body of a JSON string after the opening quote, as in Python's strict
`scanstring`: plain characters (control characters below `0x20` are
refused), the eight simple escapes, `\uXXXX` with surrogate-pair
combination.  `acc` holds already-decoded code points in reverse. -/
def parseStringBody : Nat → List Char → List Nat → Option (List Nat × List Char)
  | 0, _, _ => none
  | fuel + 1, cs, acc =>
    match cs with
    | [] => none
    | c :: rest =>
      if c = '"' then some (acc.reverse, rest)
      else if c = '\\' then
        match rest with
        | [] => none
        | e :: r2 =>
          if e = '"' then parseStringBody fuel r2 (34 :: acc)
          else if e = '\\' then parseStringBody fuel r2 (92 :: acc)
          else if e = '/' then parseStringBody fuel r2 (47 :: acc)
          else if e = 'b' then parseStringBody fuel r2 (8 :: acc)
          else if e = 'f' then parseStringBody fuel r2 (12 :: acc)
          else if e = 'n' then parseStringBody fuel r2 (10 :: acc)
          else if e = 'r' then parseStringBody fuel r2 (13 :: acc)
          else if e = 't' then parseStringBody fuel r2 (9 :: acc)
          else if e = 'u' then
            match hex4 r2 with
            | none => none
            | some (n, r3) =>
              if 0xD800 ≤ n ∧ n < 0xDC00 then
                match r3 with
                | '\\' :: 'u' :: r4 =>
                  match hex4 r4 with
                  | none => none
                  | some (m, r5) =>
                    if 0xDC00 ≤ m ∧ m < 0xE000 then
                      parseStringBody fuel r5
                        ((0x10000 + (n - 0xD800) * 0x400 + (m - 0xDC00)) :: acc)
                    else parseStringBody fuel r3 (n :: acc)
                | _ => parseStringBody fuel r3 (n :: acc)
              else parseStringBody fuel r3 (n :: acc)
          else none
      else if c.toNat < 0x20 then none
      else parseStringBody fuel rest (c.toNat :: acc)

/-- The tail of the decoder's `scan_once` dispatch: a number token, else
the constants `NaN`, `Infinity`, `-Infinity` (accepted by Python's
decoder), in the decoder's order. -/
def valueTail (cs : List Char) : Option (Json × List Char) :=
  match parseNumberTok cs with
  | some (lex, r) => some (Json.num lex, r)
  | none =>
    if cs.take 3 = "NaN".data then some (Json.num "NaN".data, cs.drop 3)
    else if cs.take 8 = "Infinity".data then
      some (Json.num "Infinity".data, cs.drop 8)
    else if cs.take 9 = "-Infinity".data then
      some (Json.num "-Infinity".data, cs.drop 9)
    else none

mutual

/-- Python `json`'s `scan_once`: one JSON value at the current position
(no leading-whitespace skip), returning the value and the rest. -/
def parseValue : Nat → List Char → Option (Json × List Char)
  | 0, _ => none
  | fuel + 1, cs =>
    match cs with
    | [] => none
    | c :: rest =>
      if c = '"' then
        match parseStringBody fuel rest [] with
        | some (codes, r) => some (Json.str codes, r)
        | none => none
      else if c = '{' then
        match skipWs rest with
        | '}' :: r2 => some (Json.obj [], r2)
        | cs2 =>
          match parseMembers fuel cs2 [] with
          | some (prs, r) => some (Json.obj prs, r)
          | none => none
      else if c = '[' then
        match skipWs rest with
        | ']' :: r2 => some (Json.arr [], r2)
        | cs2 =>
          match parseItems fuel cs2 [] with
          | some (vs, r) => some (Json.arr vs, r)
          | none => none
      else if cs.take 4 = "null".data then some (Json.null, cs.drop 4)
      else if cs.take 4 = "true".data then some (Json.bool true, cs.drop 4)
      else if cs.take 5 = "false".data then some (Json.bool false, cs.drop 5)
      else valueTail cs

/-- The member loop of the decoder's `JSONObject`, entered at a position
expected to hold a `"`-opened key; `acc` holds parsed pairs in reverse. -/
def parseMembers : Nat → List Char → List (List Nat × Json) →
    Option (List (List Nat × Json) × List Char)
  | 0, _, _ => none
  | fuel + 1, cs, acc =>
    match cs with
    | '"' :: rest =>
      match parseStringBody fuel rest [] with
      | none => none
      | some (key, r1) =>
        match skipWs r1 with
        | ':' :: r2 =>
          match parseValue fuel (skipWs r2) with
          | none => none
          | some (v, r3) =>
            match skipWs r3 with
            | ',' :: r4 => parseMembers fuel (skipWs r4) ((key, v) :: acc)
            | '}' :: r4 => some (((key, v) :: acc).reverse, r4)
            | _ => none
        | _ => none
    | _ => none

/-- The element loop of the decoder's `JSONArray`; `acc` holds parsed
elements in reverse. -/
def parseItems : Nat → List Char → List Json → Option (List Json × List Char)
  | 0, _, _ => none
  | fuel + 1, cs, acc =>
    match parseValue fuel cs with
    | none => none
    | some (v, r) =>
      match skipWs r with
      | ',' :: r2 => parseItems fuel (skipWs r2) (v :: acc)
      | ']' :: r2 => some ((v :: acc).reverse, r2)
      | _ => none

end

/-- Python's `json.loads` on a character list: skip leading whitespace,
read one value, require only whitespace to remain ("Extra data"
otherwise).  The fuel `cs.length + 1` is enough because every recursive
step of the scanner consumes at least one character first. -/
def jsonLoadsChars (cs : List Char) : Option Json :=
  match parseValue (cs.length + 1) (skipWs cs) with
  | some (v, rest) => if skipWs rest = [] then some v else none
  | none => none

/-- `json.loads` on a string. -/
def jsonLoads (s : String) : Option Json := jsonLoadsChars s.data

/-! ## The two `re.search` fallbacks of `ScreenAnalyzer._parse_response`

Strategy 2 is `re.search(r"```(?:json)?\s*(\{.*?\})\s*```", raw, re.DOTALL)`;
strategy 3 is `re.search(r"\{.*\}", raw, re.DOTALL)`.  Both are modelled as
functions returning the captured text.  `re.search` returns the match at
the leftmost starting position, with Python's backtracking order inside
one position; each place where the backtracking is forced (a `\s*` whose
continuation starts with a non-whitespace character admits only the
maximal whitespace run) is noted at its definition. -/

/-- Python's `\s` character class for `str` patterns: the ASCII
whitespace/separator control characters plus the Unicode spaces. -/
def pyWsCodes : List Nat :=
  [9, 10, 11, 12, 13, 28, 29, 30, 31, 32, 133, 160, 5760,
   8192, 8193, 8194, 8195, 8196, 8197, 8198, 8199, 8200, 8201, 8202,
   8232, 8233, 8239, 8287, 12288]

def isPyWs (c : Char) : Bool := pyWsCodes.contains c.toNat

/-- The maximal run a greedy `\s*` consumes. -/
def pySkipWs (cs : List Char) : List Char := cs.dropWhile isPyWs

/-- Three backticks, the fence delimiter of the strategy-2 pattern. -/
def fence : List Char := "```".data

/-- Does `\s*```` match here?  The `\s*` is greedy with backtracking, but
a backtick is not whitespace, so only the maximal whitespace run can be
followed by the closing fence. -/
def closesFence (cs : List Char) : Bool := (pySkipWs cs).take 3 = fence

/-- The lazy `.*?\}` of the strategy-2 pattern scanning for the first
closing position: the shortest interior such that the next character is
`}` and `\s*```` matches after it.  `acc` holds the interior scanned so
far, reversed; the returned capture includes the braces. -/
def lazyScan : List Char → List Char → Option (List Char)
  | [], _ => none
  | c :: rest, acc =>
    if c = '}' ∧ closesFence rest then some ('{' :: (acc.reverse ++ ['}']))
    else lazyScan rest (c :: acc)

/-- `\s*(\{.*?\})\s*```` after the opening fence (and optional `json`
tag): the greedy `\s*` must stop exactly at the maximal whitespace run
because its continuation `\{` is not whitespace. -/
def fencedBody (cs : List Char) : Option (List Char) :=
  match pySkipWs cs with
  | '{' :: rest => lazyScan rest []
  | _ => none

/-- The strategy-2 pattern anchored at the current position.  `(?:json)?`
backtracks: the branch that consumes `json` is tried first, then the
branch that does not. -/
def matchFencedAt (cs : List Char) : Option (List Char) :=
  if cs.take 3 = fence then
    let rest := cs.drop 3
    if rest.take 4 = "json".data then
      match fencedBody (rest.drop 4) with
      | some cap => some cap
      | none => fencedBody rest
    else fencedBody rest
  else none

/-- `re.search` of the strategy-2 pattern: try every starting position
left to right. -/
def reSearchFenced : List Char → Option (List Char)
  | [] => none
  | c :: rest =>
    match matchFencedAt (c :: rest) with
    | some cap => some cap
    | none => reSearchFenced rest

/-- Characters strictly before the last `}` of the list, when one
exists (the greedy `.*` of `\{.*\}` extends to the last `}`). -/
def lastBraceSplit : List Char → Option (List Char)
  | [] => none
  | c :: rest =>
    match lastBraceSplit rest with
    | some b => some (c :: b)
    | none => if c = '}' then some [] else none

/-- `re.search(r"\{.*\}", raw, re.DOTALL)`: the leftmost `{` that has
some `}` after it starts the match, and the greedy `.*` runs to the last
`}` of the whole text.  If the first `{` has no later `}`, no later `{`
has one either, so the search fails. -/
def reSearchGreedy : List Char → Option (List Char)
  | [] => none
  | c :: rest =>
    if c = '{' then
      match lastBraceSplit rest with
      | some before => some ('{' :: (before ++ ['}']))
      | none => none
    else reSearchGreedy rest

/-- `ScreenAnalyzer._parse_response` on a character list: strategy 1 is
`json.loads` of the whole text, strategy 2 parses the fenced capture,
strategy 3 parses the greedy brace span; every `json.JSONDecodeError` is
swallowed and the next strategy tried; `None` when all three fail. -/
def parseResponseChars (cs : List Char) : Option Json :=
  match jsonLoadsChars cs with
  | some v => some v
  | none =>
    match reSearchFenced cs with
    | some cap =>
      match jsonLoadsChars cap with
      | some v => some v
      | none =>
        match reSearchGreedy cs with
        | some cap2 => jsonLoadsChars cap2
        | none => none
    | none =>
      match reSearchGreedy cs with
      | some cap2 => jsonLoadsChars cap2
      | none => none

/-- `ScreenAnalyzer._parse_response` on a string. -/
def parseResponse (raw : String) : Option Json := parseResponseChars raw.data

/-! ## `CursorController` -/

/-- Commands issued to the pointer driver (`pyautogui`).  The smooth-move
duration (`CURSOR_MOVE_DURATION = 0.4`) is a fixed float constant and is
not carried on the command. -/
inductive PointerCmd where
  | moveTo : Int → Int → PointerCmd
  | click : PointerCmd
  | doubleClick : PointerCmd
  | rightClick : PointerCmd
deriving DecidableEq

/-- Python `value == "lit"` for a value that came out of `json.loads`:
true only when it is a string with exactly those code points. -/
def isStrVal (j : Json) (s : String) : Bool :=
  match j with
  | Json.str codes => codes = strCodes s
  | _ => false

/-- `CursorController.move_and_click`: clamp to the screen bounds queried
from `pyautogui.size()` (passed here as `screen_w`, `screen_h`), move,
then one click command — any unrecognized action value falls back to a
plain click. -/
def move_and_click (x y : Int) (action : Json) (screen_w screen_h : Int) :
    List PointerCmd :=
  let xc := max 0 (min x (screen_w - 1))
  let yc := max 0 (min y (screen_h - 1))
  [PointerCmd.moveTo xc yc,
   if isStrVal action "click" then PointerCmd.click
   else if isStrVal action "double_click" then PointerCmd.doubleClick
   else if isStrVal action "right_click" then PointerCmd.rightClick
   else PointerCmd.click]

/-- Python `dict` lookup for the dict built by `json.loads`: a duplicate
key keeps the value of its last occurrence. -/
def dictFind (pairs : List (List Nat × Json)) (k : List Nat) : Option Json :=
  match pairs with
  | [] => none
  | (k', v) :: rest =>
    match dictFind rest k with
    | some v' => some v'
    | none => if k' = k then some v else none

/-- `d.get(key)`: Python returns `None` both for an absent key and for a
stored JSON `null`, and `Json.null` is our `None`. -/
def pyGet (pairs : List (List Nat × Json)) (k : List Nat) : Json :=
  (dictFind pairs k).getD Json.null

/-- `d.get(key, default)`. -/
def pyGetD (pairs : List (List Nat × Json)) (k : List Nat) (d : Json) : Json :=
  (dictFind pairs k).getD d

/-- Is a numeric lexeme a Python-falsy number (`0`, `-0.00`, `0e5`, …)?
The exponent cannot make a nonzero mantissa zero; `NaN`/`Infinity` have
no digit in the mantissa and are truthy. -/
def numIsZero (lex : List Char) : Bool :=
  let mant := lex.takeWhile (fun c => ¬(c = 'e' ∨ c = 'E'))
  mant.any (fun c => c.isDigit) &&
    mant.all (fun c => if '1' ≤ c ∧ c ≤ '9' then false else true)

/-- Python truthiness of a `json.loads` value (`None`, `False`, zero,
empty string/list/dict are falsy). -/
def pyFalsy : Json → Bool
  | Json.null => true
  | Json.bool b => !b
  | Json.num lex => numIsZero lex
  | Json.str codes => codes.isEmpty
  | Json.arr vs => vs.isEmpty
  | Json.obj ps => ps.isEmpty

def pyTruthy (j : Json) : Bool := !pyFalsy j

/-- `x is None` for a value fetched with `.get`. -/
def Json.isNullB : Json → Bool
  | Json.null => true
  | _ => false

/-- Exceptions `CursorController.execute` can raise (all of them are
caught by the `try` of `AutomationEngine._loop`). -/
inductive PyErr where
  | attributeError : PyErr
  | typeError : PyErr
  | valueError : PyErr
deriving DecidableEq

def digitsToNat (ds : List Char) : Nat :=
  ds.foldl (fun a c => a * 10 + (c.toNat - '0'.toNat)) 0

/-- Numeric value of a JSON number lexeme truncated toward zero, as
Python's `int(float_or_int_value)` produces.  `NaN`/`Infinity` lexemes
yield `none` (Python raises).  IEEE-754 rounding of huge literals is not
modelled; no claim depends on it. -/
def numLexVal (lex : List Char) : Option Int :=
  let (sgn, body) :=
    match lex with
    | '-' :: rest => ((-1 : Int), rest)
    | _ => ((1 : Int), lex)
  let mant := body.takeWhile (fun c => ¬(c = 'e' ∨ c = 'E'))
  let expPart := (body.dropWhile (fun c => ¬(c = 'e' ∨ c = 'E'))).drop 1
  let ip := mant.takeWhile (fun c => c ≠ '.')
  let fp := (mant.dropWhile (fun c => c ≠ '.')).drop 1
  let (esgn, eds) :=
    match expPart with
    | '+' :: r => ((1 : Int), r)
    | '-' :: r => ((-1 : Int), r)
    | r => ((1 : Int), r)
  if ip.all (fun c => c.isDigit) ∧ fp.all (fun c => c.isDigit) ∧
      eds.all (fun c => c.isDigit) ∧ ip ≠ [] then
    let m : Nat := digitsToNat (ip ++ fp)
    let e : Int := esgn * (digitsToNat eds : Int) - (fp.length : Int)
    some (sgn * (if 0 ≤ e then (m : Int) * 10 ^ e.toNat
                 else (m : Int) / (10 ^ (-e).toNat : Nat)))
  else none

/-- Python `int(...)` on a string: strip whitespace, optional sign,
decimal digits (digit-group underscores are not modelled; no claim
depends on them). -/
def pyIntOfStr (codes : List Nat) : Except PyErr Int :=
  let isSp : Nat → Bool := fun n => pyWsCodes.contains n
  let t := ((codes.dropWhile isSp).reverse.dropWhile isSp).reverse
  let (sgn, ds) :=
    match t with
    | 43 :: r => ((1 : Int), r)
    | 45 :: r => ((-1 : Int), r)
    | r => ((1 : Int), r)
  if ds ≠ [] ∧ ds.all (fun n => 48 ≤ n ∧ n ≤ 57) then
    Except.ok (sgn * (ds.foldl (fun a n => a * 10 + (n - 48)) 0 : Nat))
  else Except.error PyErr.valueError

/-- Python `int(x)` on a `json.loads` value. -/
def pyInt : Json → Except PyErr Int
  | Json.num lex =>
    match numLexVal lex with
    | some v => Except.ok v
    | none => Except.error PyErr.valueError
  | Json.str codes => pyIntOfStr codes
  | Json.bool b => Except.ok (if b then 1 else 0)
  | _ => Except.error PyErr.typeError

/-- `CursorController.execute`: read `recommended` (falsy → warn and
return), read `x`/`y`/`action` from it (`.get` on a non-dict raises
`AttributeError`), return with no command when `x` or `y` is `None`,
else `move_and_click(int(x), int(y), action)`. -/
def execute (screen_w screen_h : Int) (analysis : Json) :
    Except PyErr (List PointerCmd) :=
  match analysis with
  | Json.obj pairs =>
    let rcmd := pyGet pairs (strCodes "recommended")
    if pyFalsy rcmd then Except.ok []
    else
      match rcmd with
      | Json.obj rp =>
        let x := pyGet rp (strCodes "x")
        let y := pyGet rp (strCodes "y")
        let action := pyGetD rp (strCodes "action") (Json.str (strCodes "click"))
        if x.isNullB ∨ y.isNullB then Except.ok []
        else
          match pyInt x with
          | Except.error e => Except.error e
          | Except.ok xi =>
            match pyInt y with
            | Except.error e => Except.error e
            | Except.ok yi =>
              Except.ok (move_and_click xi yi action screen_w screen_h)
      | _ => Except.error PyErr.attributeError
  | _ => Except.error PyErr.attributeError

/-! ## `AutomationEngine` lifecycle -/

/-- `AutomationEngine`'s lifecycle state: the `_running` flag and the
number of live background loop threads (`_thread`). -/
structure Engine where
  running : Bool
  active : Nat
deriving DecidableEq

def Engine.init : Engine := { running := false, active := 0 }

/-- `AutomationEngine.start`: a guarded transition — when already running
it only logs and returns (second component `false`: no thread spawned);
otherwise it sets the flag and spawns one background thread. -/
def Engine.start (e : Engine) : Engine × Bool :=
  if e.running then (e, false)
  else ({ running := true, active := e.active + 1 }, true)

/-- `AutomationEngine.stop`: when not running it only logs; otherwise it
clears the flag and joins the thread (the loop observes the cleared flag
at its next 100 ms check and exits, so the live-thread count drops). -/
def Engine.stop (e : Engine) : Engine :=
  if e.running then { running := false, active := e.active - 1 } else e

/-! ## `TrayApp` and `HotkeyManager` triggers -/

/-- The engine plus the binary visual state of the tray status icon
(green/RUNNING vs red/STOPPED); the icon is assumed created, as it is
once `TrayApp.run` has started. -/
structure Sys where
  engine : Engine
  iconRunning : Bool
deriving DecidableEq

/-- The four lifecycle triggers: tray menu items and global hotkeys. -/
inductive Trigger where
  | trayStart : Trigger
  | trayStop : Trigger
  | hotkeyStart : Trigger
  | hotkeyStop : Trigger
deriving DecidableEq

/-- `TrayApp._on_start/_on_stop` call the engine and then
`_update_icon`, which re-reads `engine.is_running`;
`HotkeyManager._on_start/_on_stop` call the engine only. -/
def handleTrigger : Trigger → Sys → Sys
  | Trigger.trayStart, s =>
    let e := (s.engine.start).1
    { engine := e, iconRunning := e.running }
  | Trigger.trayStop, s =>
    let e := s.engine.stop
    { engine := e, iconRunning := e.running }
  | Trigger.hotkeyStart, s => { s with engine := (s.engine.start).1 }
  | Trigger.hotkeyStop, s => { s with engine := s.engine.stop }

/-! ## `AutomationEngine._loop` -/

/-- What the externals do during one cycle: the screenshot call raises, or
the LLM request raises (caught inside `ScreenAnalyzer.analyze`, which
returns `None`), or the request returns raw text. -/
inductive TickInput where
  | captureRaises : TickInput
  | llmError : TickInput
  | llmRaw : String → TickInput

/-- Observable outcome of one tick body. -/
inductive TickEvent where
  | cycleErrorLogged : TickEvent
  | noAnalysisWarned : TickEvent
  | dispatched : List PointerCmd → TickEvent
deriving DecidableEq

/-- The body of one `_loop` iteration: everything inside the `try` —
capture, `analyze` (whose own `try` maps a transport error to `None`),
the truthiness check, and `execute`; any exception is caught and logged
at the tick boundary. -/
def tickBody (screen_w screen_h : Int) : TickInput → List TickEvent
  | TickInput.captureRaises => [TickEvent.cycleErrorLogged]
  | TickInput.llmError => [TickEvent.noAnalysisWarned]
  | TickInput.llmRaw raw =>
    match parseResponseChars raw.data with
    | none => [TickEvent.noAnalysisWarned]
    | some analysis =>
      if pyTruthy analysis then
        match execute screen_w screen_h analysis with
        | Except.ok cmds => [TickEvent.dispatched cmds]
        | Except.error _ => [TickEvent.cycleErrorLogged]
      else [TickEvent.noAnalysisWarned]

/-- `_loop`: run tick bodies until the inter-cycle wait observes that
`stop()` cleared the running flag (second component of each script
entry).  Returns the per-tick event lists, one entry per executed tick. -/
def loopRun (w h : Int) : List (TickInput × Bool) → List (List TickEvent)
  | [] => []
  | (inp, stopDuringWait) :: rest =>
    tickBody w h inp :: (if stopDuringWait then [] else loopRun w h rest)

/-- How many ticks a given stop-flag schedule allows. -/
def stopLen : List Bool → Nat
  | [] => 0
  | b :: rest => 1 + (if b then 0 else stopLen rest)

/-! ## `ScreenAnalyzer.encode_image` -/

/-- An in-memory PIL image: dimensions and pixel rows. -/
structure PILImage where
  width : Nat
  height : Nat
  pix : List (List Nat)
deriving DecidableEq

/-- `round(a / b)` on naturals, as PIL's aspect rounding uses. -/
def roundDiv (a b : Nat) : Nat := (2 * a + b) / (2 * b)

/-- Target size of `Image.thumbnail((mw, mh))`: no-op when the image
already fits, else shrink preserving aspect ratio (each result dimension
at least 1). -/
def thumbDims (mw mh w h : Nat) : Nat × Nat :=
  if w ≤ mw ∧ h ≤ mh then (w, h)
  else if mw * h ≥ w * mh then (max 1 (roundDiv (mh * w) h), mh)
  else (mw, max 1 (roundDiv (mw * h) w))

/-- Nearest-neighbour resample standing in for PIL's resize filter (the
filter's arithmetic is external to the claims; only which image object is
overwritten matters). -/
def resamplePix (pix : List (List Nat)) (w h nw nh : Nat) : List (List Nat) :=
  (List.range nh).map (fun i =>
    (List.range nw).map (fun j => ((pix.getD (i * h / nh) []).getD (j * w / nw) 0)))

/-- `img.thumbnail(SCREENSHOT_MAX_SIZE)` as a value transformer: the
in-place mutation is applied through the heap below. -/
def thumbnailFn (mw mh : Nat) (img : PILImage) : PILImage :=
  let nw := (thumbDims mw mh img.width img.height).1
  let nh := (thumbDims mw mh img.width img.height).2
  if nw = img.width ∧ nh = img.height then img
  else { width := nw, height := nh,
         pix := resamplePix img.pix img.width img.height nw nh }

/-- Python objects live on a heap of image cells; variables hold
references (indices). -/
abbrev Heap := List PILImage

def heapGet (h : Heap) (r : Nat) : PILImage := h.getD r ⟨0, 0, []⟩

/-- `image.copy()`: allocate a fresh cell holding the same value. -/
def imageCopy (h : Heap) (r : Nat) : Heap × Nat := (h ++ [heapGet h r], h.length)

/-- `img.thumbnail(...)`: mutate the referenced cell in place. -/
def imageThumbnailAt (h : Heap) (r : Nat) (mw mh : Nat) : Heap :=
  h.set r (thumbnailFn mw mh (heapGet h r))

/-- `ScreenAnalyzer.encode_image`: `img = image.copy()`, then
`img.thumbnail(SCREENSHOT_MAX_SIZE)` (1280×1280), then save/encode.  The
returned image value stands for the data that is JPEG-compressed and
base64-encoded (byte-level encoding is external to the core). -/
def encode_image (h : Heap) (r : Nat) : Heap × PILImage :=
  let copied := imageCopy h r
  let h2 := imageThumbnailAt copied.1 copied.2 1280 1280
  (h2, heapGet h2 copied.2)

/-! ### Scanner metatheory

Small facts about the embedded decoder used to settle the claims about
`_parse_response`: what each scanner consumes, that results survive extra
fuel, and that results survive appending text after the input (the last
one under a side condition at number tokens, where the decoder's regex
peeks one or two characters past the match). -/

def containsClose : List Char → Bool
  | [] => false
  | c :: rest => if c = '}' then true else containsClose rest

/-- Is there a substring span beginning with `{` and ending with `}`,
i.e. a `{` with some `}` strictly after it?  It suffices to look after
the first `{`. -/
def hasSpanB : List Char → Bool
  | [] => false
  | c :: rest => if c = '{' then containsClose rest else hasSpanB rest

/-- Concrete recommendation dict missing `y`, for the C5 witness. -/
def pairsMissingY : List (List Nat × Json) :=
  [(strCodes "recommended", Json.obj [(strCodes "x", Json.num ['5'])])]

theorem parseValue_nil (f : Nat) : parseValue f [] = none := by
  cases f <;> rfl

theorem parseMembers_nil (f : Nat) (acc : List (List Nat × Json)) :
    parseMembers f [] acc = none := by
  cases f <;> rfl

theorem parseItems_nil (f : Nat) (acc : List Json) :
    parseItems f [] acc = none := by
  cases f with
  | zero => rfl
  | succ f => rw [parseItems, parseValue_nil]

theorem parseStringBody_nil (f : Nat) (acc : List Nat) :
    parseStringBody f [] acc = none := by
  cases f <;> rfl

theorem skipWs_all_ws (r : List Char) (h : skipWs r = []) :
    ∀ c ∈ r, isJsonWs c = true := by
  rw [skipWs, List.dropWhile_eq_nil_iff] at h
  exact h

theorem skipWs_cons_append (cs ext : List Char) (c : Char) (r : List Char)
    (h : skipWs cs = c :: r) : skipWs (cs ++ ext) = c :: (r ++ ext) := by
  induction cs with
  | nil => cases h
  | cons x rest ih =>
    rw [skipWs] at h ⊢
    rw [List.cons_append]
    cases hx : isJsonWs x with
    | true =>
      rw [List.dropWhile_cons_of_pos hx] at h
      rw [List.dropWhile_cons_of_pos hx]
      exact ih h
    | false =>
      rw [List.dropWhile_cons_of_neg (by simp [hx])] at h
      rw [List.dropWhile_cons_of_neg (by simp [hx])]
      cases h
      rfl

theorem skipWs_prefix (cs : List Char) : ∃ t, cs = t ++ skipWs cs :=
  ⟨cs.takeWhile isJsonWs, (List.takeWhile_append_dropWhile ..).symm⟩

theorem spanDigits_concat (cs : List Char) :
    cs = (spanDigits cs).1 ++ (spanDigits cs).2 := by
  induction cs with
  | nil => rfl
  | cons c rest ih =>
    rw [spanDigits]
    rcases hsp : spanDigits rest with ⟨a', b'⟩
    rw [hsp] at ih
    by_cases hc : c.isDigit = true
    · simp only [hc, if_true, hsp]
      simpa using ih
    · simp [hc]

theorem spanDigits_stop (cs a : List Char) (d : Char) (r : List Char)
    (h : spanDigits cs = (a, d :: r)) : d.isDigit = false := by
  induction cs generalizing a with
  | nil => simp [spanDigits] at h
  | cons c rest ih =>
    rw [spanDigits] at h
    rcases hsp : spanDigits rest with ⟨a', b'⟩
    rw [hsp] at h
    by_cases hc : c.isDigit = true
    · simp only [hc, if_true] at h
      rw [Prod.mk.injEq] at h
      exact ih a' (h.2 ▸ hsp)
    · simp only [hc, if_false, Bool.false_eq_true] at h
      rw [Prod.mk.injEq] at h
      obtain ⟨h1, h2⟩ := h
      obtain ⟨rfl, rfl⟩ := List.cons.injEq .. |>.mp h2
      simpa using hc

theorem spanDigits_append (cs ext a : List Char) (d : Char) (r : List Char)
    (h : spanDigits cs = (a, d :: r)) :
    spanDigits (cs ++ ext) = (a, d :: (r ++ ext)) := by
  induction cs generalizing a with
  | nil => simp [spanDigits] at h
  | cons c rest ih =>
    rw [spanDigits] at h
    rw [List.cons_append, spanDigits]
    rcases hsp : spanDigits rest with ⟨a', b'⟩
    rw [hsp] at h
    by_cases hc : c.isDigit = true
    · simp only [hc, if_true] at h ⊢
      rw [Prod.mk.injEq] at h
      rw [ih a' (h.2 ▸ hsp)]
      rw [← h.1]
    · simp only [hc, if_false, Bool.false_eq_true] at h ⊢
      rw [Prod.mk.injEq] at h
      obtain ⟨h1, h2⟩ := h
      obtain ⟨rfl, rfl⟩ := List.cons.injEq .. |>.mp h2
      simp [← h1]

theorem hex4_append (cs ext : List Char) (n : Nat) (r : List Char)
    (h : hex4 cs = some (n, r)) : hex4 (cs ++ ext) = some (n, r ++ ext) := by
  match cs with
  | a :: b :: c :: d :: rest =>
    simp only [hex4] at h
    simp only [List.cons_append, hex4]
    cases ha : hexDigitVal a <;> cases hb : hexDigitVal b <;>
      cases hc : hexDigitVal c <;> cases hd : hexDigitVal d <;> simp_all
  | [] => cases h
  | [a] => simp [hex4] at h
  | [a, b] => simp [hex4] at h
  | [a, b, c] => simp [hex4] at h

theorem numExp_concat (lex cs lex' r : List Char)
    (h : numExp lex cs = (lex', r)) : ∃ t, lex' = lex ++ t ∧ cs = t ++ r := by
  rcases cs with _ | ⟨e, rest⟩
  · rw [numExp, Prod.mk.injEq] at h
    exact ⟨[], by simp [← h.1], by simp [← h.2]⟩
  · by_cases he : e = 'e' ∨ e = 'E'
    · rcases rest with _ | ⟨s, rest2⟩
      · simp only [numExp, if_pos he, Prod.mk.injEq] at h
        exact ⟨[], by simp [← h.1], by simp [← h.2]⟩
      · by_cases hs : s = '+' ∨ s = '-'
        · rcases hsd : spanDigits rest2 with ⟨ds, r2⟩
          simp only [numExp, if_pos he, if_pos hs, hsd] at h
          rcases ds with _ | ⟨d0, ds'⟩
          · rw [Prod.mk.injEq] at h
            exact ⟨[], by simp [← h.1], by simp [← h.2]⟩
          · rw [Prod.mk.injEq] at h
            refine ⟨e :: s :: d0 :: ds', by simp [← h.1], ?_⟩
            have hc := spanDigits_concat rest2
            rw [hsd] at hc
            simp [hc, ← h.2]
        · rcases hsd : spanDigits (s :: rest2) with ⟨ds, r2⟩
          simp only [numExp, if_pos he, if_neg hs, hsd] at h
          rcases ds with _ | ⟨d0, ds'⟩
          · rw [Prod.mk.injEq] at h
            exact ⟨[], by simp [← h.1], by simp [← h.2]⟩
          · rw [Prod.mk.injEq] at h
            refine ⟨e :: d0 :: ds', by simp [← h.1], ?_⟩
            have hc := spanDigits_concat (s :: rest2)
            rw [hsd] at hc
            simp [hc, ← h.2]
    · simp only [numExp, if_neg he, Prod.mk.injEq] at h
      exact ⟨[], by simp [← h.1], by simp [← h.2]⟩

theorem numFrac_concat (lex cs lex' r : List Char)
    (h : numFrac lex cs = (lex', r)) : ∃ t, lex' = lex ++ t ∧ cs = t ++ r := by
  rw [numFrac.eq_def] at h
  split at h
  · rename_i rest
    rcases hsd : spanDigits rest with ⟨ds, r2⟩
    rw [hsd] at h
    rcases ds with _ | ⟨d0, ds'⟩
    · exact numExp_concat _ _ _ _ h
    · obtain ⟨t, h1, h2⟩ := numExp_concat _ _ _ _ h
      refine ⟨'.' :: (d0 :: ds') ++ t, by simp [h1], ?_⟩
      have hc := spanDigits_concat rest
      rw [hsd] at hc
      simp [hc, h2]
  · exact numExp_concat _ _ _ _ h
theorem numAfterSign_concat (cs l r : List Char)
    (h : numAfterSign cs = some (l, r)) : cs = l ++ r := by
  rcases cs with _ | ⟨c, rest⟩
  · cases h
  · rw [numAfterSign] at h
    by_cases hc0 : c = '0'
    · rw [if_pos hc0, Option.some.injEq] at h
      obtain ⟨t, h1, h2⟩ := numFrac_concat _ _ _ _ h
      subst hc0
      simp [h1, h2]
    · rw [if_neg hc0] at h
      by_cases hcd : c.isDigit = true
      · rw [if_pos hcd] at h
        rcases hsd : spanDigits rest with ⟨ds, r1⟩
        rw [hsd, Option.some.injEq] at h
        obtain ⟨t, h1, h2⟩ := numFrac_concat _ _ _ _ h
        have hc := spanDigits_concat rest
        rw [hsd] at hc
        simp [h1, hc, h2]
      · rw [if_neg hcd] at h
        cases h

theorem parseNumberTok_concat (cs lex r : List Char)
    (h : parseNumberTok cs = some (lex, r)) : cs = lex ++ r := by
  rw [parseNumberTok.eq_def] at h
  split at h
  · rename_i rest
    rcases hna : numAfterSign rest with _ | ⟨l2, r2⟩
    · rw [hna] at h; cases h
    · rw [hna, Option.some.injEq] at h
      have := numAfterSign_concat _ _ _ hna
      rw [Prod.mk.injEq] at h
      simp [← h.1, ← h.2, this]
  · exact numAfterSign_concat _ _ _ h

/-- The character on which a number token stops extends nothing when it
is not a decimal point or exponent letter; appending text after the input
then leaves the token unchanged. -/
theorem numExp_append (lex cs ext lex' : List Char) (d : Char) (r' : List Char)
    (h : numExp lex cs = (lex', d :: r'))
    (hd1 : d ≠ 'e') (hd2 : d ≠ 'E') :
    numExp lex (cs ++ ext) = (lex', d :: (r' ++ ext)) := by
  rcases cs with _ | ⟨e, rest⟩
  · rw [numExp, Prod.mk.injEq] at h
    cases h.2
  · rw [List.cons_append]
    by_cases he : e = 'e' ∨ e = 'E'
    · rcases rest with _ | ⟨s, rest2⟩
      · simp only [numExp, if_pos he, Prod.mk.injEq] at h
        obtain ⟨rfl, rfl⟩ := List.cons.injEq .. |>.mp h.2
        rcases he with rfl | rfl
        · exact absurd rfl hd1
        · exact absurd rfl hd2
      · by_cases hs : s = '+' ∨ s = '-'
        · rcases hsd : spanDigits rest2 with ⟨ds, r2⟩
          simp only [numExp, if_pos he, if_pos hs, hsd] at h
          rcases ds with _ | ⟨d0, ds'⟩
          · rw [Prod.mk.injEq] at h
            obtain ⟨rfl, _⟩ := List.cons.injEq .. |>.mp h.2
            rcases he with rfl | rfl
            · exact absurd rfl hd1
            · exact absurd rfl hd2
          · rw [Prod.mk.injEq] at h
            have hap := spanDigits_append rest2 ext _ _ _ (h.2 ▸ hsd)
            simp only [List.cons_append, numExp, if_pos he, if_pos hs, hap]
            rw [← h.1]
        · rcases hsd : spanDigits (s :: rest2) with ⟨ds, r2⟩
          simp only [numExp, if_pos he, if_neg hs, hsd] at h
          rcases ds with _ | ⟨d0, ds'⟩
          · rw [Prod.mk.injEq] at h
            obtain ⟨rfl, _⟩ := List.cons.injEq .. |>.mp h.2
            rcases he with rfl | rfl
            · exact absurd rfl hd1
            · exact absurd rfl hd2
          · rw [Prod.mk.injEq] at h
            have hap := spanDigits_append (s :: rest2) ext _ _ _ (h.2 ▸ hsd)
            rw [List.cons_append] at hap
            simp only [List.cons_append, numExp, if_pos he, if_neg hs, hap]
            rw [← h.1]
    · simp only [numExp, if_neg he, Prod.mk.injEq] at h
      obtain ⟨rfl, hr⟩ := h
      obtain ⟨rfl, rfl⟩ := List.cons.injEq .. |>.mp hr
      simp only [numExp, if_neg he]

theorem numExp_not_e (lex : List Char) (c : Char) (rest : List Char)
    (hc : ¬(c = 'e' ∨ c = 'E')) : numExp lex (c :: rest) = (lex, c :: rest) := by
  rcases rest with _ | ⟨s, rest2⟩ <;> simp [numExp, hc]

theorem numFrac_not_dot (lex : List Char) (c : Char) (rest : List Char)
    (hdot : c ≠ '.') : numFrac lex (c :: rest) = numExp lex (c :: rest) := by
  rw [numFrac.eq_def]
  split
  · rename_i rest1 heq
    exact absurd (List.cons.injEq .. |>.mp heq).1 hdot
  · rfl

theorem numFrac_append (lex cs ext lex' : List Char) (d : Char) (r' : List Char)
    (h : numFrac lex cs = (lex', d :: r'))
    (hd0 : d ≠ '.') (hd1 : d ≠ 'e') (hd2 : d ≠ 'E') :
    numFrac lex (cs ++ ext) = (lex', d :: (r' ++ ext)) := by
  rcases cs with _ | ⟨c, rest⟩
  · rw [show numFrac lex [] = (lex, []) from rfl, Prod.mk.injEq] at h
    cases h.2
  · by_cases hdot : c = '.'
    · subst hdot
      rcases hsd : spanDigits rest with ⟨ds, r1⟩
      rcases ds with _ | ⟨d0, ds'⟩
      · simp only [numFrac, hsd] at h
        rw [numExp_not_e lex '.' rest (by simp), Prod.mk.injEq] at h
        obtain ⟨rfl, _⟩ := List.cons.injEq .. |>.mp h.2
        exact absurd rfl hd0
      · simp only [numFrac, hsd] at h
        rcases r1 with _ | ⟨e1, r1'⟩
        · rw [numExp, Prod.mk.injEq] at h
          cases h.2
        · have hap := spanDigits_append rest ext _ _ _ hsd
          simp only [List.cons_append, numFrac, hap]
          have hx := numExp_append _ _ ext _ _ _ h hd1 hd2
          rw [List.cons_append] at hx
          exact hx
    · rw [numFrac_not_dot lex c rest hdot] at h
      rw [List.cons_append, numFrac_not_dot lex c (rest ++ ext) hdot]
      have hx := numExp_append _ _ ext _ _ _ h hd1 hd2
      rw [List.cons_append] at hx
      exact hx

theorem numAfterSign_append (cs ext l : List Char) (d : Char) (r' : List Char)
    (h : numAfterSign cs = some (l, d :: r'))
    (hd0 : d ≠ '.') (hd1 : d ≠ 'e') (hd2 : d ≠ 'E') :
    numAfterSign (cs ++ ext) = some (l, d :: (r' ++ ext)) := by
  rcases cs with _ | ⟨c, rest⟩
  · cases h
  · rw [numAfterSign] at h
    rw [List.cons_append, numAfterSign]
    by_cases hc0 : c = '0'
    · rw [if_pos hc0] at h ⊢
      rw [Option.some.injEq] at h
      rw [numFrac_append _ _ ext _ _ _ h hd0 hd1 hd2]
    · rw [if_neg hc0] at h ⊢
      by_cases hcd : c.isDigit = true
      · rw [if_pos hcd] at h ⊢
        rcases hsd : spanDigits rest with ⟨ds, r1⟩
        rw [hsd, Option.some.injEq] at h
        rcases r1 with _ | ⟨e1, r1'⟩
        · rw [show numFrac (c :: ds) [] = (c :: ds, []) from rfl, Prod.mk.injEq] at h
          cases h.2
        · have hap := spanDigits_append rest ext _ _ _ hsd
          rw [hap, Option.some.injEq]
          have hx := numFrac_append _ _ ext _ _ _ h hd0 hd1 hd2
          rw [List.cons_append] at hx
          rw [hx]
      · rw [if_neg hcd] at h
        cases h

theorem parseNumberTok_not_neg (c : Char) (rest : List Char) (hneg : c ≠ '-') :
    parseNumberTok (c :: rest) = numAfterSign (c :: rest) := by
  rw [parseNumberTok.eq_def]
  split
  · rename_i rest1 heq
    exact absurd (List.cons.injEq .. |>.mp heq).1 hneg
  · rfl

theorem parseNumberTok_append (cs ext lex : List Char) (d : Char)
    (r' : List Char) (h : parseNumberTok cs = some (lex, d :: r'))
    (hd0 : d ≠ '.') (hd1 : d ≠ 'e') (hd2 : d ≠ 'E') :
    parseNumberTok (cs ++ ext) = some (lex, d :: (r' ++ ext)) := by
  rcases cs with _ | ⟨c, rest⟩
  · cases h
  · by_cases hneg : c = '-'
    · subst hneg
      rw [parseNumberTok] at h
      rw [List.cons_append, parseNumberTok]
      rcases hna : numAfterSign rest with _ | ⟨l2, r2⟩
      · rw [hna] at h; cases h
      · rw [hna] at h
        simp only [Option.some.injEq, Prod.mk.injEq] at h
        rw [numAfterSign_append rest ext l2 d r' (h.2 ▸ hna) hd0 hd1 hd2]
        simp [← h.1]
    · rw [parseNumberTok_not_neg c rest hneg] at h
      rw [List.cons_append, parseNumberTok_not_neg c (rest ++ ext) hneg]
      have hx := numAfterSign_append _ ext _ _ _ h hd0 hd1 hd2
      rw [List.cons_append] at hx
      exact hx

theorem parseNumberTok_head_fail (c : Char) (rest : List Char)
    (hcd : c.isDigit = false) (hneg : c ≠ '-') :
    parseNumberTok (c :: rest) = none := by
  rw [parseNumberTok_not_neg c rest hneg, numAfterSign]
  have hc0 : c ≠ '0' := by
    intro hh
    rw [hh] at hcd
    simp at hcd
  rw [if_neg hc0, if_neg (by simp [hcd])]

theorem parseNumberTok_neg_head_fail (c : Char) (rest : List Char)
    (hcd : c.isDigit = false) :
    parseNumberTok ('-' :: c :: rest) = none := by
  rw [parseNumberTok]
  have : numAfterSign (c :: rest) = none := by
    rw [numAfterSign]
    have hc0 : c ≠ '0' := by
      intro hh
      rw [hh] at hcd
      simp at hcd
    rw [if_neg hc0, if_neg (by simp [hcd])]
  rw [this]

set_option maxRecDepth 4000 in
/-- Extra fuel never invalidates a successful string-body parse. -/
theorem parseStringBody_mono (f : Nat) (cs : List Char) (acc : List Nat)
    (res : List Nat × List Char) (h : parseStringBody f cs acc = some res) :
    parseStringBody (f + 1) cs acc = some res := by
  induction f, cs, acc using parseStringBody.induct generalizing res with
  | _ => ?_
  all_goals try (rw [parseStringBody.eq_def] at h; simp at h; done)
  all_goals try (rw [parseStringBody.eq_def] at h; simp at h; rw [parseStringBody.eq_def]; simp; exact h)
  all_goals try (rw [parseStringBody.eq_def]; simp; rename_i ih; exact ih res h)
  all_goals (rw [parseStringBody.eq_def] at h ⊢)
  all_goals simp_all
  all_goals try (rename_i ih; exact ih res.1 res.2 rfl)
  all_goals try (rw [if_neg (by omega)] at h ⊢; rename_i ih; exact ih res.1 res.2 h)

theorem hex4_suffix (cs : List Char) (n : Nat) (r : List Char)
    (h : hex4 cs = some (n, r)) : ∃ t, cs = t ++ r := by
  match cs with
  | a :: b :: c :: d :: rest =>
    refine ⟨[a, b, c, d], ?_⟩
    simp only [hex4] at h
    cases ha : hexDigitVal a <;> cases hb : hexDigitVal b <;>
      cases hc : hexDigitVal c <;> cases hd : hexDigitVal d <;> simp_all
  | [] => cases h
  | [a] => simp [hex4] at h
  | [a, b] => simp [hex4] at h
  | [a, b, c] => simp [hex4] at h

theorem parseStringBody_backslash (f : Nat) (acc : List Nat) :
    parseStringBody f ['\\'] acc = none := by
  cases f <;> rfl

set_option maxRecDepth 4000 in
/-- A successful string-body parse is unaffected by text appended after
the input: the decoder never reads past the closing quote. -/
theorem parseStringBody_append (f : Nat) (cs : List Char) (acc : List Nat)
    (ext : List Char) (codes : List Nat) (r : List Char)
    (h : parseStringBody f cs acc = some (codes, r)) :
    parseStringBody f (cs ++ ext) acc = some (codes, r ++ ext) := by
  induction f, cs, acc using parseStringBody.induct generalizing codes r with
  | _ => ?_
  all_goals try (rw [parseStringBody.eq_def] at h; simp at h; done)
  all_goals try (rw [parseStringBody.eq_def] at h; simp at h; rw [parseStringBody.eq_def]; simp [h.1, h.2])
  all_goals try (rw [parseStringBody.eq_def] at h; simp at h; rw [parseStringBody.eq_def]; simp; rename_i ih; exact ih _ _ h)
  all_goals (rw [parseStringBody.eq_def] at h ⊢)
  all_goals try (simp_all [hex4_append]; done)
  case case15 =>
    rename_i rest n hn r4 m r5 hx2 hm c1 c2 c3 c4 c5 c6 c7 c8 c9 hx1 ih
    have ha1 := hex4_append rest ext _ _ hx1
    simp only [List.cons_append] at ha1
    have ha2 := hex4_append r4 ext _ _ hx2
    simp [hx1, hx2, hn, hm] at h
    simp [ha1, ha2, hn, hm]
    exact ih _ _ h
  case case16 =>
    rename_i rest n hn r4 m r5 hx2 hm c1 c2 c3 c4 c5 c6 c7 c8 c9 hx1 ih
    have ha1 := hex4_append rest ext _ _ hx1
    simp only [List.cons_append] at ha1
    have ha2 := hex4_append r4 ext _ _ hx2
    simp [hx1, hx2, hn, hm] at h
    simp [ha1, ha2, hn, hm]
    have hx := ih _ _ h
    simp only [List.cons_append] at hx
    exact hx
  case case17 =>
    rename_i rest n r5 hx1 hn hsh c1 c2 c3 c4 c5 c6 c7 c8 c9 ih
    have ha1 := hex4_append rest ext _ _ hx1
    simp only [List.cons_append] at ha1
    simp [hx1, hn] at h
    simp [ha1, hn]
    split
    · rename_i r4 heq
      rcases r5 with _ | ⟨x1, r5t⟩
      · rw [parseStringBody_nil] at h
        cases h
      · rcases r5t with _ | ⟨x2, r5tt⟩
        · rw [List.cons_append, List.nil_append] at heq
          obtain ⟨hb, _⟩ := List.cons.injEq .. |>.mp heq
          subst hb
          rw [parseStringBody_backslash] at h
          cases h
        · rw [List.cons_append, List.cons_append] at heq
          obtain ⟨hb1, heq2⟩ := List.cons.injEq .. |>.mp heq
          obtain ⟨hb2, _⟩ := List.cons.injEq .. |>.mp heq2
          subst hb1
          subst hb2
          exact (hsh r5tt rfl).elim
    · exact ih _ _ h
  case case18 =>
    rename_i rest n r5 hx1 hn c1 c2 c3 c4 c5 c6 c7 c8 c9 ih
    have ha1 := hex4_append rest ext _ _ hx1
    simp only [List.cons_append] at ha1
    simp [hx1, hn] at h
    simp [ha1, hn]
    exact ih _ _ h

theorem hex4_suffix2 (cs : List Char) (n : Nat) (r : List Char)
    (h : hex4 cs = some (n, r)) : r <:+ cs := by
  obtain ⟨t, ht⟩ := hex4_suffix cs n r h
  exact ⟨t, ht.symm⟩

set_option maxRecDepth 4000 in
/-- What a successful string-body parse leaves over is a suffix of its
input. -/
theorem parseStringBody_suffix (f : Nat) (cs : List Char) (acc : List Nat)
    (codes : List Nat) (r : List Char)
    (h : parseStringBody f cs acc = some (codes, r)) : r <:+ cs := by
  induction f, cs, acc using parseStringBody.induct generalizing codes r with
  | _ => ?_
  all_goals try (rw [parseStringBody.eq_def] at h; simp at h; done)
  all_goals try (rw [parseStringBody.eq_def] at h; simp at h; obtain ⟨h1, h2⟩ := h; exact h2 ▸ List.suffix_cons _ _)
  all_goals (rw [parseStringBody.eq_def] at h; simp at h)
  all_goals try (rename_i ih; exact (((ih _ _ h).trans (List.suffix_cons _ _)).trans (List.suffix_cons _ _)))
  all_goals try (simp [*] at h; done)
  all_goals try (simp only [*] at h)
  all_goals try (rename_i ih; exact ((ih _ _ h).trans (List.suffix_cons _ _)))
  all_goals try (rename_i hx ih; exact ((((ih _ _ h).trans (hex4_suffix2 _ _ _ hx)).trans (List.suffix_cons _ _)).trans (List.suffix_cons _ _)))
  all_goals try (rename_i hx1 hn hsh c1 c2 c3 c4 c5 c6 c7 c8 c9 ih; exact ((((ih _ _ h).trans (hex4_suffix2 _ _ _ hx1)).trans (List.suffix_cons _ _)).trans (List.suffix_cons _ _)))
  all_goals try (rename_i hx1 hn c1 c2 c3 c4 c5 c6 c7 c8 c9 ih; exact ((((ih _ _ h).trans (hex4_suffix2 _ _ _ hx1)).trans (List.suffix_cons _ _)).trans (List.suffix_cons _ _)))
  all_goals try (rename_i n hn r4 m r5 hx2 hm c1 c2 c3 c4 c5 c6 c7 c8 c9 hx1 ih; exact (((((((ih _ _ h).trans (hex4_suffix2 _ _ _ hx2)).trans (List.suffix_cons _ _)).trans (List.suffix_cons _ _)).trans (hex4_suffix2 _ _ _ hx1)).trans (List.suffix_cons _ _)).trans (List.suffix_cons _ _)))

theorem valueTail_of_numTok_some (cs lex r : List Char)
    (hn : parseNumberTok cs = some (lex, r)) :
    valueTail cs = some (Json.num lex, r) := by
  rw [valueTail, hn]

theorem valueTail_of_numTok_none (cs : List Char)
    (hn : parseNumberTok cs = none) :
    valueTail cs =
      (if cs.take 3 = "NaN".data then some (Json.num "NaN".data, cs.drop 3)
       else if cs.take 8 = "Infinity".data then
         some (Json.num "Infinity".data, cs.drop 8)
       else if cs.take 9 = "-Infinity".data then
         some (Json.num "-Infinity".data, cs.drop 9)
       else none) := by
  rw [valueTail, hn]

theorem take_len_le (cs X : List Char) (n : Nat) (hn : X.length = n)
    (h : cs.take n = X) : n <= cs.length := by
  have hh := congrArg List.length h
  simp only [List.length_take] at hh
  omega

theorem take_fixed_append (cs ext X : List Char) (n : Nat) (hn : X.length = n)
    (h : cs.take n = X) :
    (cs ++ ext).take n = X ∧ (cs ++ ext).drop n = cs.drop n ++ ext := by
  have hlen : n <= cs.length := take_len_le cs X n hn h
  exact ⟨by rw [List.take_append_of_le_length hlen, h],
    by rw [List.drop_append_of_le_length hlen]⟩

theorem valueTail_suffix (cs : List Char) (v : Json) (r : List Char)
    (h : valueTail cs = some (v, r)) : r <:+ cs := by
  cases hn : parseNumberTok cs with
  | some lr =>
    obtain ⟨lex, r2⟩ := lr
    rw [valueTail_of_numTok_some cs lex r2 hn] at h
    simp only [Option.some.injEq, Prod.mk.injEq] at h
    exact ⟨lex, by rw [← h.2]; exact (parseNumberTok_concat cs lex r2 hn).symm⟩
  | none =>
    rw [valueTail_of_numTok_none cs hn] at h
    by_cases h3 : cs.take 3 = "NaN".data
    · rw [if_pos h3] at h
      simp only [Option.some.injEq, Prod.mk.injEq] at h
      exact h.2 ▸ List.drop_suffix 3 cs
    · rw [if_neg h3] at h
      by_cases h8 : cs.take 8 = "Infinity".data
      · rw [if_pos h8] at h
        simp only [Option.some.injEq, Prod.mk.injEq] at h
        exact h.2 ▸ List.drop_suffix 8 cs
      · rw [if_neg h8] at h
        by_cases h9 : cs.take 9 = "-Infinity".data
        · rw [if_pos h9] at h
          simp only [Option.some.injEq, Prod.mk.injEq] at h
          exact h.2 ▸ List.drop_suffix 9 cs
        · rw [if_neg h9] at h
          simp at h

/-- `valueTail` is unaffected by appended text when the character on which
it stopped cannot extend a number token. -/
theorem valueTail_append (cs ext : List Char) (v : Json) (d : Char)
    (r' : List Char) (h : valueTail cs = some (v, d :: r'))
    (hd0 : d ≠ '.') (hd1 : d ≠ 'e') (hd2 : d ≠ 'E') :
    valueTail (cs ++ ext) = some (v, d :: (r' ++ ext)) := by
  cases hn : parseNumberTok cs with
  | some lr =>
    obtain ⟨lex, r2⟩ := lr
    rw [valueTail_of_numTok_some cs lex r2 hn] at h
    simp only [Option.some.injEq, Prod.mk.injEq] at h
    rw [valueTail_of_numTok_some (cs ++ ext) lex (d :: (r' ++ ext))
      (parseNumberTok_append cs ext lex d r' (by rw [hn, h.2]) hd0 hd1 hd2), h.1]
  | none =>
    rw [valueTail_of_numTok_none cs hn] at h
    by_cases h3 : cs.take 3 = "NaN".data
    · rw [if_pos h3] at h
      simp only [Option.some.injEq, Prod.mk.injEq] at h
      obtain ⟨ht, hdr⟩ := take_fixed_append cs ext ("NaN".data) 3 rfl h3
      rcases cs with _ | ⟨c, rest⟩
      · exact absurd h3 (by decide)
      · have hc : c = 'N' := by
          rw [show ("NaN".data : List Char) = 'N' :: "aN".data from rfl,
            List.take_succ_cons] at h3
          exact (List.cons.injEq .. |>.mp h3).1
        subst hc
        have hfail : parseNumberTok (('N' :: rest) ++ ext) = none := by
          rw [List.cons_append]
          exact parseNumberTok_head_fail 'N' (rest ++ ext) (by decide) (by decide)
        rw [valueTail_of_numTok_none _ hfail, if_pos ht, hdr, h.2]
        simp only [List.cons_append]
        exact congrArg (fun z => some (z, d :: (r' ++ ext))) h.1
    · rw [if_neg h3] at h
      by_cases h8 : cs.take 8 = "Infinity".data
      · rw [if_pos h8] at h
        simp only [Option.some.injEq, Prod.mk.injEq] at h
        obtain ⟨ht, hdr⟩ := take_fixed_append cs ext ("Infinity".data) 8 rfl h8
        have h3' : (cs ++ ext).take 3 = cs.take 3 :=
          List.take_append_of_le_length
            (le_trans (by decide) (take_len_le cs ("Infinity".data) 8 rfl h8))
        rcases cs with _ | ⟨c, rest⟩
        · exact absurd h8 (by decide)
        · have hc : c = 'I' := by
            rw [show ("Infinity".data : List Char) = 'I' :: "nfinity".data from rfl,
              List.take_succ_cons] at h8
            exact (List.cons.injEq .. |>.mp h8).1
          subst hc
          have hfail : parseNumberTok (('I' :: rest) ++ ext) = none := by
            rw [List.cons_append]
            exact parseNumberTok_head_fail 'I' (rest ++ ext) (by decide) (by decide)
          rw [valueTail_of_numTok_none _ hfail, h3', if_neg h3, if_pos ht,
            hdr, h.2]
          simp only [List.cons_append]
          exact congrArg (fun z => some (z, d :: (r' ++ ext))) h.1
      · rw [if_neg h8] at h
        by_cases h9 : cs.take 9 = "-Infinity".data
        · rw [if_pos h9] at h
          simp only [Option.some.injEq, Prod.mk.injEq] at h
          obtain ⟨ht, hdr⟩ := take_fixed_append cs ext ("-Infinity".data) 9 rfl h9
          have hlen := take_len_le cs ("-Infinity".data) 9 rfl h9
          have h3' : (cs ++ ext).take 3 = cs.take 3 :=
            List.take_append_of_le_length (le_trans (by decide) hlen)
          have h8' : (cs ++ ext).take 8 = cs.take 8 :=
            List.take_append_of_le_length (le_trans (by decide) hlen)
          rcases cs with _ | ⟨c, rest⟩
          · exact absurd h9 (by decide)
          · rcases rest with _ | ⟨c2, rest2⟩
            · exact absurd hlen (by simp)
            · have hc : c = '-' ∧ c2 = 'I' := by
                rw [show ("-Infinity".data : List Char) =
                  '-' :: 'I' :: "nfinity".data from rfl,
                  List.take_succ_cons, List.take_succ_cons] at h9
                exact ⟨(List.cons.injEq .. |>.mp h9).1,
                  (List.cons.injEq .. |>.mp (List.cons.injEq .. |>.mp h9).2).1⟩
              obtain ⟨hc1, hc2⟩ := hc
              subst hc1
              subst hc2
              have hfail :
                  parseNumberTok (('-' :: 'I' :: rest2) ++ ext) = none := by
                rw [List.cons_append, List.cons_append]
                exact parseNumberTok_neg_head_fail 'I' (rest2 ++ ext) (by decide)
              rw [valueTail_of_numTok_none _ hfail, h3', if_neg h3, h8',
                if_neg h8, if_pos ht, hdr, h.2]
              simp only [List.cons_append]
              exact congrArg (fun z => some (z, d :: (r' ++ ext))) h.1
        · rw [if_neg h9] at h
          simp at h

theorem skipWs_suffix (cs : List Char) : skipWs cs <:+ cs :=
  List.dropWhile_suffix isJsonWs

theorem skipWs_cons_suffix (a : List Char) (c : Char) (r : List Char)
    (heq : skipWs a = c :: r) : r <:+ a := by
  have h1 : skipWs a <:+ a := skipWs_suffix a
  rw [heq] at h1
  exact (List.suffix_cons c r).trans h1

theorem parseValue_succ_quote (f : Nat) (rest : List Char) :
    parseValue (f+1) ('"' :: rest) =
      match parseStringBody f rest [] with
      | some (codes, r) => some (Json.str codes, r)
      | none => none := rfl

theorem parseValue_succ_brace (f : Nat) (rest : List Char) :
    parseValue (f+1) ('{' :: rest) =
      match skipWs rest with
      | '}' :: r2 => some (Json.obj [], r2)
      | cs2 =>
        match parseMembers f cs2 [] with
        | some (prs, r) => some (Json.obj prs, r)
        | none => none := rfl

theorem parseValue_succ_brack (f : Nat) (rest : List Char) :
    parseValue (f+1) ('[' :: rest) =
      match skipWs rest with
      | ']' :: r2 => some (Json.arr [], r2)
      | cs2 =>
        match parseItems f cs2 [] with
        | some (vs, r) => some (Json.arr vs, r)
        | none => none := rfl

theorem parseValue_succ_other (f : Nat) (c : Char) (rest : List Char)
    (hq : c ≠ '"') (hb : c ≠ '{') (ha : c ≠ '[') :
    parseValue (f+1) (c :: rest) =
      (if (c :: rest).take 4 = "null".data then
        some (Json.null, (c :: rest).drop 4)
      else if (c :: rest).take 4 = "true".data then
        some (Json.bool true, (c :: rest).drop 4)
      else if (c :: rest).take 5 = "false".data then
        some (Json.bool false, (c :: rest).drop 5)
      else valueTail (c :: rest)) := by
  simp only [parseValue, if_neg hq, if_neg hb, if_neg ha]

theorem parseMembers_succ_quote (f : Nat) (rest : List Char)
    (acc : List (List Nat × Json)) :
    parseMembers (f+1) ('"' :: rest) acc =
      match parseStringBody f rest [] with
      | none => none
      | some (key, r1) =>
        match skipWs r1 with
        | ':' :: r2 =>
          match parseValue f (skipWs r2) with
          | none => none
          | some (v, r3) =>
            match skipWs r3 with
            | ',' :: r4 => parseMembers f (skipWs r4) ((key, v) :: acc)
            | '}' :: r4 => some (((key, v) :: acc).reverse, r4)
            | _ => none
        | _ => none := rfl

theorem parseMembers_succ_other (f : Nat) (c : Char) (rest : List Char)
    (acc : List (List Nat × Json)) (hq : c ≠ '"') :
    parseMembers (f+1) (c :: rest) acc = none := by
  simp only [parseMembers]
  split
  · rename_i heq
    exact absurd (List.cons.injEq .. |>.mp heq).1 hq
  · rfl

theorem parseItems_succ (f : Nat) (cs : List Char) (acc : List Json) :
    parseItems (f+1) cs acc =
      match parseValue f cs with
      | none => none
      | some (v, r) =>
        match skipWs r with
        | ',' :: r2 => parseItems f (skipWs r2) (v :: acc)
        | ']' :: r2 => some ((v :: acc).reverse, r2)
        | _ => none := rfl


/-- Joint suffix property of the mutual scanner: whatever remains after a
successful parse is a suffix of the input. -/
theorem scan_suffix (f : Nat) :
    (∀ cs v r, parseValue f cs = some (v, r) → r <:+ cs) ∧
    (∀ cs acc prs r, parseMembers f cs acc = some (prs, r) → r <:+ cs) ∧
    (∀ cs acc vs r, parseItems f cs acc = some (vs, r) → r <:+ cs) := by
  induction f with
  | zero =>
    refine ⟨?_, ?_, ?_⟩
    · intro cs v r h
      rw [show parseValue 0 cs = none from rfl] at h
      exact Option.noConfusion h
    · intro cs acc prs r h
      rw [show parseMembers 0 cs acc = none from rfl] at h
      exact Option.noConfusion h
    · intro cs acc vs r h
      rw [show parseItems 0 cs acc = none from rfl] at h
      exact Option.noConfusion h
  | succ f ih =>
    obtain ⟨ihv, ihm, ihi⟩ := ih
    refine ⟨?_, ?_, ?_⟩
    · intro cs v r h
      rcases cs with _ | ⟨c, rest⟩
      · rw [parseValue_nil] at h
        exact Option.noConfusion h
      · simp only [parseValue] at h
        by_cases hq : c = '"'
        · rw [if_pos hq] at h
          cases hsb : parseStringBody f rest [] with
          | none => simp only [hsb] at h; exact Option.noConfusion h
          | some p =>
            obtain ⟨codes, r5⟩ := p
            simp only [hsb, Option.some.injEq, Prod.mk.injEq] at h
            rw [← h.2]
            exact (parseStringBody_suffix f rest [] codes r5 hsb).trans
              (List.suffix_cons c rest)
        · rw [if_neg hq] at h
          by_cases hb : c = '\x7b'
          · rw [if_pos hb] at h
            split at h
            · rename_i r2 heq
              simp only [Option.some.injEq, Prod.mk.injEq] at h
              rw [← h.2]
              exact (skipWs_cons_suffix rest _ r2 heq).trans (List.suffix_cons c rest)
            · cases hm : parseMembers f (skipWs rest) [] with
              | none => simp only [hm] at h; exact Option.noConfusion h
              | some p =>
                obtain ⟨prs, r5⟩ := p
                simp only [hm, Option.some.injEq, Prod.mk.injEq] at h
                rw [← h.2]
                exact ((ihm _ _ _ _ hm).trans (skipWs_suffix rest)).trans
                  (List.suffix_cons c rest)
          · rw [if_neg hb] at h
            by_cases ha : c = '['
            · rw [if_pos ha] at h
              split at h
              · rename_i r2 heq
                simp only [Option.some.injEq, Prod.mk.injEq] at h
                rw [← h.2]
                exact (skipWs_cons_suffix rest _ r2 heq).trans (List.suffix_cons c rest)
              · cases hi : parseItems f (skipWs rest) [] with
                | none => simp only [hi] at h; exact Option.noConfusion h
                | some p =>
                  obtain ⟨vs, r5⟩ := p
                  simp only [hi, Option.some.injEq, Prod.mk.injEq] at h
                  rw [← h.2]
                  exact ((ihi _ _ _ _ hi).trans (skipWs_suffix rest)).trans
                    (List.suffix_cons c rest)
            · rw [if_neg ha] at h
              by_cases h4 : (c :: rest).take 4 = "null".data
              · rw [if_pos h4] at h
                simp only [Option.some.injEq, Prod.mk.injEq] at h
                rw [← h.2]
                exact List.drop_suffix 4 (c :: rest)
              · rw [if_neg h4] at h
                by_cases h4t : (c :: rest).take 4 = "true".data
                · rw [if_pos h4t] at h
                  simp only [Option.some.injEq, Prod.mk.injEq] at h
                  rw [← h.2]
                  exact List.drop_suffix 4 (c :: rest)
                · rw [if_neg h4t] at h
                  by_cases h5 : (c :: rest).take 5 = "false".data
                  · rw [if_pos h5] at h
                    simp only [Option.some.injEq, Prod.mk.injEq] at h
                    rw [← h.2]
                    exact List.drop_suffix 5 (c :: rest)
                  · rw [if_neg h5] at h
                    exact valueTail_suffix _ _ _ h
    · intro cs acc prs r h
      rcases cs with _ | ⟨c, rest⟩
      · rw [parseMembers_nil] at h
        exact Option.noConfusion h
      · by_cases hq : c = '"'
        · subst hq
          simp only [parseMembers] at h
          cases hsb : parseStringBody f rest [] with
          | none => simp only [hsb] at h; exact Option.noConfusion h
          | some p =>
            obtain ⟨key, r1⟩ := p
            simp only [hsb] at h
            split at h
            · rename_i r2 heq
              cases hv : parseValue f (skipWs r2) with
              | none => simp only [hv] at h; exact Option.noConfusion h
              | some p2 =>
                obtain ⟨v, r3⟩ := p2
                simp only [hv] at h
                split at h
                · rename_i r4 heq2
                  exact ((((ihm _ _ _ _ h).trans (skipWs_suffix r4)).trans
                    ((skipWs_cons_suffix r3 _ r4 heq2).trans
                      ((ihv _ _ _ hv).trans (skipWs_suffix r2)))).trans
                    ((skipWs_cons_suffix r1 _ r2 heq).trans
                      (parseStringBody_suffix f rest [] key r1 hsb))).trans
                    (List.suffix_cons _ rest)
                · rename_i r4 heq2
                  simp only [Option.some.injEq, Prod.mk.injEq] at h
                  rw [← h.2]
                  exact (((skipWs_cons_suffix r3 _ r4 heq2).trans
                    ((ihv _ _ _ hv).trans (skipWs_suffix r2))).trans
                    ((skipWs_cons_suffix r1 _ r2 heq).trans
                      (parseStringBody_suffix f rest [] key r1 hsb))).trans
                    (List.suffix_cons _ rest)
                · exact Option.noConfusion h
            · exact Option.noConfusion h
        · simp only [parseMembers] at h
          split at h
          · rename_i rest1 heq
            exact absurd (List.cons.injEq .. |>.mp heq).1 hq
          · exact Option.noConfusion h
    · intro cs acc vs r h
      simp only [parseItems] at h
      cases hv : parseValue f cs with
      | none => simp only [hv] at h; exact Option.noConfusion h
      | some p =>
        obtain ⟨v, r3⟩ := p
        simp only [hv] at h
        split at h
        · rename_i r2 heq
          exact (((ihi _ _ _ _ h).trans (skipWs_suffix r2)).trans
            (skipWs_cons_suffix r3 _ r2 heq)).trans (ihv _ _ _ hv)
        · rename_i r2 heq
          simp only [Option.some.injEq, Prod.mk.injEq] at h
          rw [← h.2]
          exact (skipWs_cons_suffix r3 _ r2 heq).trans (ihv _ _ _ hv)
        · exact Option.noConfusion h


/-- Fuel monotonicity of the mutual scanner: success at fuel `f` is
preserved at fuel `f+1`. -/
theorem scan_mono (f : Nat) :
    (∀ cs res, parseValue f cs = some res → parseValue (f+1) cs = some res) ∧
    (∀ cs acc res, parseMembers f cs acc = some res →
      parseMembers (f+1) cs acc = some res) ∧
    (∀ cs acc res, parseItems f cs acc = some res →
      parseItems (f+1) cs acc = some res) := by
  induction f with
  | zero =>
    refine ⟨?_, ?_, ?_⟩
    · intro cs res h
      rw [show parseValue 0 cs = none from rfl] at h
      exact Option.noConfusion h
    · intro cs acc res h
      rw [show parseMembers 0 cs acc = none from rfl] at h
      exact Option.noConfusion h
    · intro cs acc res h
      rw [show parseItems 0 cs acc = none from rfl] at h
      exact Option.noConfusion h
  | succ f ih =>
    obtain ⟨ihv, ihm, ihi⟩ := ih
    refine ⟨?_, ?_, ?_⟩
    · intro cs res h
      rcases cs with _ | ⟨c, rest⟩
      · rw [parseValue_nil] at h
        exact Option.noConfusion h
      · by_cases hq : c = '"'
        · subst hq
          rw [parseValue_succ_quote] at h
          rw [parseValue_succ_quote]
          cases hsb : parseStringBody f rest [] with
          | none => simp only [hsb] at h; exact Option.noConfusion h
          | some p =>
            obtain ⟨codes, r5⟩ := p
            simp only [hsb] at h
            simp only [parseStringBody_mono f rest [] (codes, r5) hsb]
            exact h
        · by_cases hb : c = '\x7b'
          · subst hb
            rw [parseValue_succ_brace] at h
            rw [parseValue_succ_brace]
            split at h
            · exact h
            · cases hm : parseMembers f (skipWs rest) [] with
              | none => simp only [hm] at h; exact Option.noConfusion h
              | some p =>
                simp only [hm] at h
                simp only [ihm _ _ p hm]
                exact h
          · by_cases ha : c = '['
            · subst ha
              rw [parseValue_succ_brack] at h
              rw [parseValue_succ_brack]
              split at h
              · exact h
              · cases hi : parseItems f (skipWs rest) [] with
                | none => simp only [hi] at h; exact Option.noConfusion h
                | some p =>
                  simp only [hi] at h
                  simp only [ihi _ _ p hi]
                  exact h
            · rw [parseValue_succ_other f c rest hq hb ha] at h
              rw [parseValue_succ_other (f+1) c rest hq hb ha]
              exact h
    · intro cs acc res h
      rcases cs with _ | ⟨c, rest⟩
      · rw [parseMembers_nil] at h
        exact Option.noConfusion h
      · by_cases hq : c = '"'
        · subst hq
          rw [parseMembers_succ_quote] at h
          rw [parseMembers_succ_quote]
          cases hsb : parseStringBody f rest [] with
          | none => simp only [hsb] at h; exact Option.noConfusion h
          | some p =>
            obtain ⟨key, r1⟩ := p
            simp only [hsb] at h
            simp only [parseStringBody_mono f rest [] (key, r1) hsb]
            split at h
            · rename_i r2 heq
              cases hv : parseValue f (skipWs r2) with
              | none => simp only [hv] at h; exact Option.noConfusion h
              | some p2 =>
                obtain ⟨v, r3⟩ := p2
                simp only [hv] at h
                simp only [ihv _ (v, r3) hv]
                split at h
                · exact ihm _ _ _ h
                · exact h
                · exact Option.noConfusion h
            · exact Option.noConfusion h
        · rw [parseMembers_succ_other f c rest acc hq] at h
          exact Option.noConfusion h
    · intro cs acc res h
      rw [parseItems_succ] at h
      rw [parseItems_succ]
      cases hv : parseValue f cs with
      | none => simp only [hv] at h; exact Option.noConfusion h
      | some p =>
        obtain ⟨v, r3⟩ := p
        simp only [hv] at h
        simp only [ihv _ (v, r3) hv]
        split at h
        · exact ihi _ _ _ h
        · exact h
        · exact Option.noConfusion h

theorem parseValue_mono_le (f f' : Nat) (hle : f ≤ f') (cs : List Char)
    (res : Json × List Char) (h : parseValue f cs = some res) :
    parseValue f' cs = some res := by
  induction hle with
  | refl => exact h
  | step hle ih => exact (scan_mono _).1 _ _ ih

theorem skipWs_head_cases (r3 : List Char) (c : Char) (r4 : List Char)
    (h : skipWs r3 = c :: r4) :
    ∃ d r'', r3 = d :: r'' ∧ (isJsonWs d = true ∨ d = c) := by
  rcases r3 with _ | ⟨d, r''⟩
  · exact absurd h (by rw [show skipWs [] = [] from rfl]; exact fun hh => List.noConfusion hh)
  · refine ⟨d, r'', rfl, ?_⟩
    by_cases hw : isJsonWs d = true
    · exact Or.inl hw
    · right
      have hw' : ¬ (isJsonWs d = true) := hw
      rw [skipWs, List.dropWhile_cons_of_neg hw'] at h
      exact (List.cons.injEq .. |>.mp h).1

theorem skipWs_head_safe (r3 : List Char) (c : Char) (r4 : List Char)
    (h : skipWs r3 = c :: r4) (hc0 : c ≠ '.') (hc1 : c ≠ 'e') (hc2 : c ≠ 'E') :
    ∃ d r'', r3 = d :: r'' ∧ d ≠ '.' ∧ d ≠ 'e' ∧ d ≠ 'E' := by
  obtain ⟨d, r'', hr, hd⟩ := skipWs_head_cases r3 c r4 h
  rcases hd with hw | rfl
  · exact ⟨d, r'', hr,
      fun hh => absurd hw (by rw [hh]; decide),
      fun hh => absurd hw (by rw [hh]; decide),
      fun hh => absurd hw (by rw [hh]; decide)⟩
  · exact ⟨d, r'', hr, hc0, hc1, hc2⟩

theorem skipWs_append_of_ne_nil (a ext : List Char) (h : skipWs a ≠ []) :
    skipWs (a ++ ext) = skipWs a ++ ext := by
  rcases hsw : skipWs a with _ | ⟨c, r⟩
  · exact absurd hsw h
  · rw [skipWs_cons_append a ext c r hsw]
    exact (List.cons_append c r ext).symm

theorem take_ne_of_head_ne (c x : Char) (cs Xt : List Char) (n : Nat)
    (hc : c ≠ x) : (c :: cs).take (n+1) ≠ x :: Xt := by
  rw [List.take_succ_cons]
  intro hh
  exact hc (List.cons.injEq .. |>.mp hh).1

/-- A successful `valueTail` can only start with a sign, a digit, or the
head of `NaN` / `Infinity`. -/
theorem valueTail_head (c : Char) (rest : List Char) (res : Json × List Char)
    (h : valueTail (c :: rest) = some res) :
    c = '-' ∨ c.isDigit = true ∨ c = 'N' ∨ c = 'I' := by
  cases hn : parseNumberTok (c :: rest) with
  | some lr =>
    by_cases hneg : c = '-'
    · exact Or.inl hneg
    · by_cases hcd : c.isDigit = true
      · exact Or.inr (Or.inl hcd)
      · have hcd' : c.isDigit = false := by
          cases hdd : c.isDigit
          · rfl
          · exact absurd hdd hcd
        rw [parseNumberTok_head_fail c rest hcd' hneg] at hn
        exact Option.noConfusion hn
  | none =>
    rw [valueTail_of_numTok_none _ hn] at h
    by_cases h3 : (c :: rest).take 3 = "NaN".data
    · refine Or.inr (Or.inr (Or.inl ?_))
      rw [show ("NaN".data : List Char) = 'N' :: "aN".data from rfl,
        List.take_succ_cons] at h3
      exact (List.cons.injEq .. |>.mp h3).1
    · rw [if_neg h3] at h
      by_cases h8 : (c :: rest).take 8 = "Infinity".data
      · refine Or.inr (Or.inr (Or.inr ?_))
        rw [show ("Infinity".data : List Char) = 'I' :: "nfinity".data from rfl,
          List.take_succ_cons] at h8
        exact (List.cons.injEq .. |>.mp h8).1
      · rw [if_neg h8] at h
        by_cases h9 : (c :: rest).take 9 = "-Infinity".data
        · refine Or.inl ?_
          rw [show ("-Infinity".data : List Char) = '-' :: "Infinity".data from rfl,
            List.take_succ_cons] at h9
          exact (List.cons.injEq .. |>.mp h9).1
        · rw [if_neg h9] at h
          exact Option.noConfusion h


/-- Joint append-extension for the mutual scanner: a successful parse is
unaffected by appended text, provided (for a bare value) the character
the parse stopped on cannot extend a number token.  The member and item
loops always stop after a closing brace or bracket, so they need no side
condition. -/
theorem scan_append (ext : List Char) (f : Nat) :
    (∀ cs v d r', parseValue f cs = some (v, d :: r') →
      d ≠ '.' → d ≠ 'e' → d ≠ 'E' →
      parseValue f (cs ++ ext) = some (v, d :: (r' ++ ext))) ∧
    (∀ cs acc prs r, parseMembers f cs acc = some (prs, r) →
      parseMembers f (cs ++ ext) acc = some (prs, r ++ ext)) ∧
    (∀ cs acc vs r, parseItems f cs acc = some (vs, r) →
      parseItems f (cs ++ ext) acc = some (vs, r ++ ext)) := by
  induction f with
  | zero =>
    refine ⟨?_, ?_, ?_⟩
    · intro cs v d r' h hd0 hd1 hd2
      rw [show parseValue 0 cs = none from rfl] at h
      exact Option.noConfusion h
    · intro cs acc prs r h
      rw [show parseMembers 0 cs acc = none from rfl] at h
      exact Option.noConfusion h
    · intro cs acc vs r h
      rw [show parseItems 0 cs acc = none from rfl] at h
      exact Option.noConfusion h
  | succ f ih =>
    obtain ⟨ihv, ihm, ihi⟩ := ih
    refine ⟨?_, ?_, ?_⟩
    · intro cs v d r' h hd0 hd1 hd2
      rcases cs with _ | ⟨c, rest⟩
      · rw [parseValue_nil] at h
        exact Option.noConfusion h
      · rw [List.cons_append]
        by_cases hq : c = '"'
        · subst hq
          rw [parseValue_succ_quote] at h
          rw [parseValue_succ_quote]
          cases hsb : parseStringBody f rest [] with
          | none => simp only [hsb] at h; exact Option.noConfusion h
          | some p =>
            obtain ⟨codes, r5⟩ := p
            simp only [hsb] at h
            simp only [Option.some.injEq, Prod.mk.injEq] at h
            simp only [parseStringBody_append f rest [] ext codes r5 hsb]
            rw [h.2, h.1, List.cons_append]
        · by_cases hb : c = '\x7b'
          · subst hb
            rw [parseValue_succ_brace] at h
            rw [parseValue_succ_brace]
            split at h
            · rename_i r2 heq
              simp only [Option.some.injEq, Prod.mk.injEq] at h
              rw [skipWs_cons_append rest ext _ r2 heq]
              show some (Json.obj [], r2 ++ ext) = some (v, d :: (r' ++ ext))
              rw [h.2, h.1, List.cons_append]
            · rename_i hne
              cases hm : parseMembers f (skipWs rest) [] with
              | none => simp only [hm] at h; exact Option.noConfusion h
              | some p =>
                obtain ⟨prs, r5⟩ := p
                simp only [hm] at h
                simp only [Option.some.injEq, Prod.mk.injEq] at h
                have hnn : skipWs rest ≠ [] := by
                  intro hh
                  rw [hh, parseMembers_nil] at hm
                  exact Option.noConfusion hm
                have hsa : skipWs (rest ++ ext) = skipWs rest ++ ext :=
                  skipWs_append_of_ne_nil rest ext hnn
                rcases hsw : skipWs rest with _ | ⟨e, es⟩
                · exact absurd hsw hnn
                · have he : e ≠ '\x7d' := fun hh => hne es (by rw [hsw, hh])
                  rw [hsa, hsw, List.cons_append]
                  split
                  · rename_i r2'' heq2
                    exact absurd (List.cons.injEq .. |>.mp heq2).1 he
                  · have hm2 := ihm (skipWs rest) [] prs r5 hm
                    rw [hsw, List.cons_append] at hm2
                    simp only [hm2]
                    rw [h.2, h.1, List.cons_append]
          · by_cases ha : c = '['
            · subst ha
              rw [parseValue_succ_brack] at h
              rw [parseValue_succ_brack]
              split at h
              · rename_i r2 heq
                simp only [Option.some.injEq, Prod.mk.injEq] at h
                rw [skipWs_cons_append rest ext _ r2 heq]
                show some (Json.arr [], r2 ++ ext) = some (v, d :: (r' ++ ext))
                rw [h.2, h.1, List.cons_append]
              · rename_i hne
                cases hi : parseItems f (skipWs rest) [] with
                | none => simp only [hi] at h; exact Option.noConfusion h
                | some p =>
                  obtain ⟨vs, r5⟩ := p
                  simp only [hi] at h
                  simp only [Option.some.injEq, Prod.mk.injEq] at h
                  have hnn : skipWs rest ≠ [] := by
                    intro hh
                    rw [hh, parseItems_nil] at hi
                    exact Option.noConfusion hi
                  have hsa : skipWs (rest ++ ext) = skipWs rest ++ ext :=
                    skipWs_append_of_ne_nil rest ext hnn
                  rcases hsw : skipWs rest with _ | ⟨e, es⟩
                  · exact absurd hsw hnn
                  · have he : e ≠ ']' := fun hh => hne es (by rw [hsw, hh])
                    rw [hsa, hsw, List.cons_append]
                    split
                    · rename_i r2'' heq2
                      exact absurd (List.cons.injEq .. |>.mp heq2).1 he
                    · have hi2 := ihi (skipWs rest) [] vs r5 hi
                      rw [hsw, List.cons_append] at hi2
                      simp only [hi2]
                      rw [h.2, h.1, List.cons_append]
            · rw [parseValue_succ_other f c rest hq hb ha] at h
              rw [parseValue_succ_other f c (rest ++ ext) hq hb ha]
              by_cases h4 : (c :: rest).take 4 = "null".data
              · rw [if_pos h4] at h
                simp only [Option.some.injEq, Prod.mk.injEq] at h
                obtain ⟨ht, hdr⟩ :=
                  take_fixed_append (c :: rest) ext ("null".data) 4 rfl h4
                rw [List.cons_append] at ht hdr
                rw [if_pos ht, hdr, h.2, h.1, List.cons_append]
              · rw [if_neg h4] at h
                by_cases h4t : (c :: rest).take 4 = "true".data
                · rw [if_pos h4t] at h
                  simp only [Option.some.injEq, Prod.mk.injEq] at h
                  obtain ⟨ht, hdr⟩ :=
                    take_fixed_append (c :: rest) ext ("true".data) 4 rfl h4t
                  have h4' : ((c :: rest) ++ ext).take 4 = (c :: rest).take 4 :=
                    List.take_append_of_le_length
                      (take_len_le (c :: rest) ("true".data) 4 rfl h4t)
                  rw [List.cons_append] at ht hdr h4'
                  rw [h4', if_neg h4, if_pos h4t, hdr, h.2, h.1, List.cons_append]
                · rw [if_neg h4t] at h
                  by_cases h5 : (c :: rest).take 5 = "false".data
                  · rw [if_pos h5] at h
                    simp only [Option.some.injEq, Prod.mk.injEq] at h
                    obtain ⟨ht, hdr⟩ :=
                      take_fixed_append (c :: rest) ext ("false".data) 5 rfl h5
                    have hlen5 := take_len_le (c :: rest) ("false".data) 5 rfl h5
                    have h4' : ((c :: rest) ++ ext).take 4 = (c :: rest).take 4 :=
                      List.take_append_of_le_length (le_trans (by decide) hlen5)
                    rw [List.cons_append] at ht hdr h4'
                    rw [h4', if_neg h4, if_neg h4t, if_pos ht, hdr, h.2, h.1,
                      List.cons_append]
                  · rw [if_neg h5] at h
                    have hhead := valueTail_head c rest _ h
                    have hcn : c ≠ 'n' := by
                      rcases hhead with rfl | hdig | rfl | rfl
                      · decide
                      · intro hh
                        rw [hh] at hdig
                        exact absurd hdig (by decide)
                      · decide
                      · decide
                    have hct : c ≠ 't' := by
                      rcases hhead with rfl | hdig | rfl | rfl
                      · decide
                      · intro hh
                        rw [hh] at hdig
                        exact absurd hdig (by decide)
                      · decide
                      · decide
                    have hcf : c ≠ 'f' := by
                      rcases hhead with rfl | hdig | rfl | rfl
                      · decide
                      · intro hh
                        rw [hh] at hdig
                        exact absurd hdig (by decide)
                      · decide
                      · decide
                    have h4'' : (c :: (rest ++ ext)).take 4 ≠ "null".data := by
                      rw [show ("null".data : List Char) = 'n' :: "ull".data from rfl]
                      exact take_ne_of_head_ne c 'n' _ _ 3 hcn
                    have h4t'' : (c :: (rest ++ ext)).take 4 ≠ "true".data := by
                      rw [show ("true".data : List Char) = 't' :: "rue".data from rfl]
                      exact take_ne_of_head_ne c 't' _ _ 3 hct
                    have h5'' : (c :: (rest ++ ext)).take 5 ≠ "false".data := by
                      rw [show ("false".data : List Char) = 'f' :: "alse".data from rfl]
                      exact take_ne_of_head_ne c 'f' _ _ 4 hcf
                    rw [if_neg h4'', if_neg h4t'', if_neg h5'']
                    rw [show c :: (rest ++ ext) = (c :: rest) ++ ext from rfl]
                    exact valueTail_append (c :: rest) ext v d r' h hd0 hd1 hd2
    · intro cs acc prs r h
      rcases cs with _ | ⟨c, rest⟩
      · rw [parseMembers_nil] at h
        exact Option.noConfusion h
      · rw [List.cons_append]
        by_cases hq : c = '"'
        · subst hq
          rw [parseMembers_succ_quote] at h
          rw [parseMembers_succ_quote]
          cases hsb : parseStringBody f rest [] with
          | none => simp only [hsb] at h; exact Option.noConfusion h
          | some p =>
            obtain ⟨key, r1⟩ := p
            simp only [hsb] at h
            simp only [parseStringBody_append f rest [] ext key r1 hsb]
            split at h
            · rename_i r2 heq
              rw [skipWs_cons_append r1 ext _ r2 heq]
              cases hv : parseValue f (skipWs r2) with
              | none => simp only [hv] at h; exact Option.noConfusion h
              | some p2 =>
                obtain ⟨v, r3⟩ := p2
                simp only [hv] at h
                have hnn2 : skipWs r2 ≠ [] := by
                  intro hh
                  rw [hh, parseValue_nil] at hv
                  exact Option.noConfusion hv
                split at h
                · rename_i r4 heq2
                  obtain ⟨d2, rr2, hr3, hs0, hs1, hs2⟩ :=
                    skipWs_head_safe r3 ',' r4 heq2 (by decide) (by decide) (by decide)
                  have hv2 := ihv (skipWs r2) v d2 rr2
                    (by rw [← hr3]; exact hv) hs0 hs1 hs2
                  rw [← skipWs_append_of_ne_nil r2 ext hnn2] at hv2
                  have hr3e : d2 :: (rr2 ++ ext) = r3 ++ ext := by
                    rw [hr3, List.cons_append]
                  rw [hr3e] at hv2
                  simp only [hv2]
                  rw [skipWs_cons_append r3 ext _ r4 heq2]
                  have hnn4 : skipWs r4 ≠ [] := by
                    intro hh
                    rw [hh, parseMembers_nil] at h
                    exact Option.noConfusion h
                  have hm2 := ihm (skipWs r4) ((key, v) :: acc) prs r h
                  rw [← skipWs_append_of_ne_nil r4 ext hnn4] at hm2
                  show parseMembers f (skipWs (r4 ++ ext)) ((key, v) :: acc) =
                    some (prs, r ++ ext)
                  exact hm2
                · rename_i r4 heq2
                  simp only [Option.some.injEq, Prod.mk.injEq] at h
                  obtain ⟨d2, rr2, hr3, hs0, hs1, hs2⟩ :=
                    skipWs_head_safe r3 '\x7d' r4 heq2 (by decide) (by decide) (by decide)
                  have hv2 := ihv (skipWs r2) v d2 rr2
                    (by rw [← hr3]; exact hv) hs0 hs1 hs2
                  rw [← skipWs_append_of_ne_nil r2 ext hnn2] at hv2
                  have hr3e : d2 :: (rr2 ++ ext) = r3 ++ ext := by
                    rw [hr3, List.cons_append]
                  rw [hr3e] at hv2
                  simp only [hv2]
                  rw [skipWs_cons_append r3 ext _ r4 heq2]
                  show some (((key, v) :: acc).reverse, r4 ++ ext) = some (prs, r ++ ext)
                  rw [h.1, h.2]
                · exact Option.noConfusion h
            · exact Option.noConfusion h
        · rw [parseMembers_succ_other f c rest acc hq] at h
          exact Option.noConfusion h
    · intro cs acc vs r h
      rw [parseItems_succ] at h
      rw [parseItems_succ]
      cases hv : parseValue f cs with
      | none => simp only [hv] at h; exact Option.noConfusion h
      | some p =>
        obtain ⟨v, r3⟩ := p
        simp only [hv] at h
        split at h
        · rename_i r2 heq
          obtain ⟨d2, rr2, hr3, hs0, hs1, hs2⟩ :=
            skipWs_head_safe r3 ',' r2 heq (by decide) (by decide) (by decide)
          have hv2 := ihv cs v d2 rr2 (by rw [← hr3]; exact hv) hs0 hs1 hs2
          have hr3e : d2 :: (rr2 ++ ext) = r3 ++ ext := by
            rw [hr3, List.cons_append]
          rw [hr3e] at hv2
          simp only [hv2]
          rw [skipWs_cons_append r3 ext _ r2 heq]
          have hnn2 : skipWs r2 ≠ [] := by
            intro hh
            rw [hh, parseItems_nil] at h
            exact Option.noConfusion h
          have hi2 := ihi (skipWs r2) (v :: acc) vs r h
          rw [← skipWs_append_of_ne_nil r2 ext hnn2] at hi2
          show parseItems f (skipWs (r2 ++ ext)) (v :: acc) = some (vs, r ++ ext)
          exact hi2
        · rename_i r2 heq
          simp only [Option.some.injEq, Prod.mk.injEq] at h
          obtain ⟨d2, rr2, hr3, hs0, hs1, hs2⟩ :=
            skipWs_head_safe r3 ']' r2 heq (by decide) (by decide) (by decide)
          have hv2 := ihv cs v d2 rr2 (by rw [← hr3]; exact hv) hs0 hs1 hs2
          have hr3e : d2 :: (rr2 ++ ext) = r3 ++ ext := by
            rw [hr3, List.cons_append]
          rw [hr3e] at hv2
          simp only [hv2]
          rw [skipWs_cons_append r3 ext _ r2 heq]
          show some ((v :: acc).reverse, r2 ++ ext) = some (vs, r ++ ext)
          rw [h.1, h.2]
        · exact Option.noConfusion h


/-- A head character that can begin no JSON value makes the scanner fail. -/
theorem parseValue_head_fail (f : Nat) (c : Char) (rest : List Char)
    (hq : c ≠ '"') (hb : c ≠ '\x7b') (ha : c ≠ '[')
    (hn : c ≠ 'n') (ht : c ≠ 't') (hf : c ≠ 'f')
    (hd : c.isDigit = false) (hm : c ≠ '-') (hN : c ≠ 'N') (hI : c ≠ 'I') :
    parseValue f (c :: rest) = none := by
  cases f with
  | zero => rfl
  | succ f =>
    rw [parseValue_succ_other f c rest hq hb ha]
    rw [if_neg (by
      rw [show ("null".data : List Char) = 'n' :: "ull".data from rfl]
      exact take_ne_of_head_ne c 'n' _ _ 3 hn)]
    rw [if_neg (by
      rw [show ("true".data : List Char) = 't' :: "rue".data from rfl]
      exact take_ne_of_head_ne c 't' _ _ 3 ht)]
    rw [if_neg (by
      rw [show ("false".data : List Char) = 'f' :: "alse".data from rfl]
      exact take_ne_of_head_ne c 'f' _ _ 4 hf)]
    cases hvt : valueTail (c :: rest) with
    | none => rfl
    | some res =>
      rcases valueTail_head c rest res hvt with rfl | hdig | rfl | rfl
      · exact absurd rfl hm
      · rw [hdig] at hd
        exact Bool.noConfusion hd
      · exact absurd rfl hN
      · exact absurd rfl hI

theorem jsonLoadsChars_of_parse_none (cs : List Char)
    (h : parseValue (cs.length + 1) (skipWs cs) = none) :
    jsonLoadsChars cs = none := by
  rw [jsonLoadsChars, h]

theorem jsonLoadsChars_of_parse (cs : List Char) (v : Json) (rest : List Char)
    (h : parseValue (cs.length + 1) (skipWs cs) = some (v, rest))
    (hr : skipWs rest = []) : jsonLoadsChars cs = some v := by
  rw [jsonLoadsChars]
  simp only [h]
  rw [if_pos hr]

theorem jsonLoadsChars_inv (cs : List Char) (v : Json)
    (h : jsonLoadsChars cs = some v) :
    ∃ rest, parseValue (cs.length + 1) (skipWs cs) = some (v, rest) ∧
      skipWs rest = [] := by
  rw [jsonLoadsChars] at h
  cases hp : parseValue (cs.length + 1) (skipWs cs) with
  | none =>
    simp only [hp] at h
    exact Option.noConfusion h
  | some p =>
    obtain ⟨w, rest⟩ := p
    simp only [hp] at h
    by_cases hr : skipWs rest = []
    · rw [if_pos hr] at h
      refine ⟨rest, ?_, hr⟩
      rw [(Option.some.injEq .. |>.mp h)]
    · rw [if_neg hr] at h
      exact Option.noConfusion h

theorem skipWs_cons_of_not_ws (c : Char) (x : List Char)
    (h : isJsonWs c = false) : skipWs (c :: x) = c :: x := by
  rw [skipWs, List.dropWhile_cons_of_neg (by rw [h]; exact Bool.false_ne_true)]

theorem pySkipWs_cons_of_not_ws (c : Char) (x : List Char)
    (h : isPyWs c = false) : pySkipWs (c :: x) = c :: x := by
  rw [pySkipWs, List.dropWhile_cons_of_neg (by rw [h]; exact Bool.false_ne_true)]

/-- Shape of a successful lazy scan: the text splits at the first
admissible closing brace and the capture is everything up to it. -/
theorem lazyScan_spec (cs : List Char) : ∀ acc cap, lazyScan cs acc = some cap →
    ∃ pre suf, cs = pre ++ '\x7d' :: suf ∧
      cap = '\x7b' :: (acc.reverse ++ pre ++ ['\x7d']) ∧
      closesFence suf = true := by
  induction cs with
  | nil =>
    intro acc cap h
    exact Option.noConfusion h
  | cons c rest ih =>
    intro acc cap h
    rw [lazyScan] at h
    by_cases hc : c = '\x7d' ∧ closesFence rest = true
    · rw [if_pos (by exact ⟨hc.1, hc.2⟩)] at h
      refine ⟨[], rest, by rw [hc.1, List.nil_append], ?_, hc.2⟩
      rw [← (Option.some.injEq .. |>.mp h)]
      simp
    · rw [if_neg (by exact fun hh => hc ⟨hh.1, hh.2⟩)] at h
      obtain ⟨pre, suf, h1, h2, h3⟩ := ih (c :: acc) cap h
      refine ⟨c :: pre, suf, by rw [h1, List.cons_append], ?_, h3⟩
      rw [h2]
      simp [List.reverse_cons, List.append_assoc]

/-- The lazy scan succeeds whenever some closing brace is admissible. -/
theorem lazyScan_isSome (pre : List Char) : ∀ suf acc,
    closesFence suf = true → (lazyScan (pre ++ '\x7d' :: suf) acc).isSome := by
  induction pre with
  | nil =>
    intro suf acc hcf
    rw [List.nil_append, lazyScan, if_pos ⟨rfl, hcf⟩]
    rfl
  | cons c pt ih =>
    intro suf acc hcf
    rw [List.cons_append, lazyScan]
    by_cases hc : c = '\x7d' ∧ closesFence (pt ++ '\x7d' :: suf) = true
    · rw [if_pos hc]
      rfl
    · rw [if_neg hc]
      exact ih suf (c :: acc) hcf

/-- Splitting an append at an occurrence of a character absent from the
right part: the split lands inside the left part. -/
theorem split_in_left (c : Char) (ys : List Char) (hc : c ∉ ys) :
    ∀ pre xs suf, pre ++ c :: suf = xs ++ ys →
    ∃ suf1, xs = pre ++ c :: suf1 ∧ suf = suf1 ++ ys := by
  intro pre
  induction pre with
  | nil =>
    intro xs suf h
    rcases xs with _ | ⟨x, xt⟩
    · rw [List.nil_append, List.nil_append] at h
      exact absurd (h ▸ List.mem_cons_self c suf) hc
    · rw [List.nil_append, List.cons_append] at h
      obtain ⟨h1, h2⟩ := List.cons.injEq .. |>.mp h
      exact ⟨xt, by rw [h1, List.nil_append], h2⟩
  | cons p pt ih =>
    intro xs suf h
    rcases xs with _ | ⟨x, xt⟩
    · rw [List.nil_append, List.cons_append] at h
      have : c ∈ ys := by
        rw [← h]
        exact List.mem_cons_of_mem p (List.mem_append_right pt (List.mem_cons_self c suf))
      exact absurd this hc
    · rw [List.cons_append, List.cons_append] at h
      obtain ⟨h1, h2⟩ := List.cons.injEq .. |>.mp h
      obtain ⟨suf1, h3, h4⟩ := ih xt suf h2
      exact ⟨suf1, by rw [h1, h3, List.cons_append], h4⟩

theorem lastBraceSplit_append (xs ys : List Char)
    (h : lastBraceSplit ys = none) :
    lastBraceSplit (xs ++ ys) = lastBraceSplit xs := by
  induction xs with
  | nil => rw [List.nil_append, h]; rfl
  | cons c xt ih =>
    rw [List.cons_append, lastBraceSplit, ih, lastBraceSplit]

theorem lastBraceSplit_concat (xs : List Char) :
    lastBraceSplit (xs ++ ['\x7d']) = some xs := by
  induction xs with
  | nil => rfl
  | cons c xt ih =>
    rw [List.cons_append, lastBraceSplit, ih]


/-- A value that opens with a brace always ends at its closing brace, so
appending text never disturbs a successful parse of it. -/
theorem parseValue_obj_append (f : Nat) (ct ext : List Char) (v : Json)
    (r : List Char) (h : parseValue f ('\x7b' :: ct) = some (v, r)) :
    parseValue f (('\x7b' :: ct) ++ ext) = some (v, r ++ ext) := by
  cases f with
  | zero =>
    rw [show parseValue 0 ('\x7b' :: ct) = none from rfl] at h
    exact Option.noConfusion h
  | succ f =>
    rw [List.cons_append]
    rw [parseValue_succ_brace] at h
    rw [parseValue_succ_brace]
    split at h
    · rename_i r2 heq
      simp only [Option.some.injEq, Prod.mk.injEq] at h
      rw [skipWs_cons_append ct ext _ r2 heq]
      show some (Json.obj [], r2 ++ ext) = some (v, r ++ ext)
      rw [h.2, h.1]
    · rename_i hne
      cases hm : parseMembers f (skipWs ct) [] with
      | none => simp only [hm] at h; exact Option.noConfusion h
      | some p =>
        obtain ⟨prs, r5⟩ := p
        simp only [hm] at h
        simp only [Option.some.injEq, Prod.mk.injEq] at h
        have hnn : skipWs ct ≠ [] := by
          intro hh
          rw [hh, parseMembers_nil] at hm
          exact Option.noConfusion hm
        have hsa : skipWs (ct ++ ext) = skipWs ct ++ ext :=
          skipWs_append_of_ne_nil ct ext hnn
        rcases hsw : skipWs ct with _ | ⟨e, es⟩
        · exact absurd hsw hnn
        · have he : e ≠ '\x7d' := fun hh => hne es (by rw [hsw, hh])
          rw [hsa, hsw, List.cons_append]
          split
          · rename_i r2'' heq2
            exact absurd (List.cons.injEq .. |>.mp heq2).1 he
          · have hm2 := (scan_append ext f).2.1 (skipWs ct) [] prs r5 hm
            rw [hsw, List.cons_append] at hm2
            simp only [hm2]
            rw [h.2, h.1]

/-- A strict prefix of a loadable brace document, cut so that it still
ends at some closing brace, never loads itself: the leftover input after
it would end in the document's final brace, which is not whitespace. -/
theorem jsonLoads_obj_prefix_free (ct ext : List Char) (v : Json)
    (hlast : ext.getLast? = some '\x7d')
    (hv : jsonLoadsChars (('\x7b' :: ct) ++ ext) = some v)
    (hcap : ('\x7b' :: ct).getLast? = some '\x7d') :
    jsonLoadsChars ('\x7b' :: ct) = none := by
  cases hw : jsonLoadsChars ('\x7b' :: ct) with
  | none => rfl
  | some w =>
    exfalso
    obtain ⟨rest, hp, hr⟩ := jsonLoadsChars_inv _ w hw
    rw [skipWs_cons_of_not_ws '\x7b' ct (by decide)] at hp
    have hsuf : rest <:+ ('\x7b' :: ct) := (scan_suffix _).1 _ _ _ hp
    have hrest : rest = [] := by
      rcases hre : rest with _ | ⟨r0, rs⟩
      · rfl
      · exfalso
        obtain ⟨t, hts⟩ := hsuf
        have hlr : rest.getLast? = some '\x7d' := by
          rw [← hcap, ← hts]
          exact (List.getLast?_append_of_ne_nil t
            (by rw [hre]; exact List.cons_ne_nil r0 rs)).symm
        have hmem : '\x7d' ∈ rest := by
          rw [← List.dropLast_append_getLast? _ hlr]
          exact List.mem_append_right _ (List.mem_singleton.mpr rfl)
        exact absurd (skipWs_all_ws rest hr '\x7d' hmem) (by decide)
    rw [hrest] at hp
    have hext2 := parseValue_obj_append _ ct ext w [] hp
    rw [List.nil_append] at hext2
    obtain ⟨rest2, hp2, hr2⟩ := jsonLoadsChars_inv _ v hv
    rw [show skipWs (('\x7b' :: ct) ++ ext) = ('\x7b' :: ct) ++ ext from by
      rw [List.cons_append]
      exact skipWs_cons_of_not_ws '\x7b' (ct ++ ext) (by decide)] at hp2
    have hle : ('\x7b' :: ct).length + 1 ≤ (('\x7b' :: ct) ++ ext).length + 1 := by
      rw [List.length_append]
      omega
    have hext3 := parseValue_mono_le _ _ hle _ _ hext2
    rw [hp2] at hext3
    obtain ⟨hveq, hrest2⟩ :=
      Prod.mk.injEq .. |>.mp (Option.some.injEq .. |>.mp hext3)
    rw [hrest2] at hr2
    have hmem : '\x7d' ∈ ext := by
      rw [← List.dropLast_append_getLast? _ hlast]
      exact List.mem_append_right _ (List.mem_singleton.mpr rfl)
    exact absurd (skipWs_all_ws ext hr2 '\x7d' hmem) (by decide)


theorem jsonLoadsChars_fenced_none (X : List Char) :
    jsonLoadsChars ("```json\n".data ++ X) = none := by
  apply jsonLoadsChars_of_parse_none
  rw [show ("```json\n".data ++ X) = '\x60' :: ("``json\n".data ++ X) from rfl]
  rw [skipWs_cons_of_not_ws '\x60' _ (by decide)]
  exact parseValue_head_fail _ '\x60' _ (by decide) (by decide) (by decide)
    (by decide) (by decide) (by decide) (by decide) (by decide) (by decide)
    (by decide)

theorem matchFencedAt_unfold (Y : List Char) :
    matchFencedAt ("```json\n".data ++ Y) =
      (match fencedBody ('\n' :: Y) with
       | some cap => some cap
       | none => fencedBody ("json\n".data ++ Y)) := rfl

theorem reSearchFenced_cons (c : Char) (rest : List Char) :
    reSearchFenced (c :: rest) =
      (match matchFencedAt (c :: rest) with
       | some cap => some cap
       | none => reSearchFenced rest) := rfl

/-- Strategy 2 on the fenced wrapping of a brace document: the search
matches at position 0 and the capture runs from the opening brace to the
first closing brace that the closing fence can follow. -/
theorem reSearchFenced_fenced (jt tl : List Char) (hcf : closesFence tl = true)
    (hjt : ∃ pre2, jt = pre2 ++ ['\x7d']) :
    ∃ cap, reSearchFenced ("```json\n".data ++ (('\x7b' :: jt) ++ tl)) = some cap ∧
      ∃ pre suf, jt ++ tl = pre ++ '\x7d' :: suf ∧
        cap = '\x7b' :: (pre ++ ['\x7d']) ∧ closesFence suf = true := by
  obtain ⟨pre2, hpre2⟩ := hjt
  have hsome : (lazyScan (jt ++ tl) []).isSome := by
    rw [hpre2, List.append_assoc, List.singleton_append]
    exact lazyScan_isSome pre2 tl [] hcf
  cases hls : lazyScan (jt ++ tl) [] with
  | none =>
    rw [hls] at hsome
    exact absurd hsome (by simp)
  | some cap =>
    obtain ⟨pre, suf, h1, h2, h3⟩ := lazyScan_spec (jt ++ tl) [] cap hls
    have hfb : fencedBody ('\n' :: (('\x7b' :: jt) ++ tl)) = some cap := by
      have h0 : pySkipWs ('\n' :: (('\x7b' :: jt) ++ tl)) =
          pySkipWs (('\x7b' :: jt) ++ tl) := by
        rw [pySkipWs, pySkipWs, List.dropWhile_cons_of_pos (by decide)]
      have h0' : pySkipWs (('\x7b' :: jt) ++ tl) = '\x7b' :: (jt ++ tl) := by
        rw [List.cons_append]
        exact pySkipWs_cons_of_not_ws '\x7b' (jt ++ tl) (by decide)
      simp only [fencedBody, h0.trans h0', hls]
    refine ⟨cap, ?_, pre, suf, h1, by rw [h2]; simp, h3⟩
    rw [show ("```json\n".data ++ (('\x7b' :: jt) ++ tl)) =
      '\x60' :: ("``json\n".data ++ (('\x7b' :: jt) ++ tl)) from rfl,
      reSearchFenced_cons,
      show ('\x60' :: ("``json\n".data ++ (('\x7b' :: jt) ++ tl))) =
        "```json\n".data ++ (('\x7b' :: jt) ++ tl) from rfl,
      matchFencedAt_unfold]
    simp only [hfb]

theorem reSearchGreedy_skip_fence (X : List Char) :
    reSearchGreedy ("```json\n".data ++ X) = reSearchGreedy X := rfl

/-- Strategy 3 on text whose first brace opens a document ending at the
last closing brace of the text: the greedy span is the whole document. -/
theorem reSearchGreedy_brace (jt tl pre2 : List Char)
    (hpre2 : jt = pre2 ++ ['\x7d']) (htl : lastBraceSplit tl = none) :
    reSearchGreedy (('\x7b' :: jt) ++ tl) = some ('\x7b' :: jt) := by
  rw [List.cons_append, reSearchGreedy, if_pos rfl]
  have hlbs : lastBraceSplit (jt ++ tl) = some pre2 := by
    rw [lastBraceSplit_append _ _ htl, hpre2, lastBraceSplit_concat]
  simp only [hlbs]
  rw [hpre2]


/-- C3: for every string of the form ```` ```json\n{...}\n``` ````
embedding a valid JSON document `j` (one that `json.loads` accepts,
delimited by braces), `_parse_response` of the fenced string yields the
same result as `_parse_response` of the bare document.  Strategy 1 fails
on the fence, strategy 2 captures the document itself (or a prefix of it
cut at an earlier admissible closing brace, which then fails to load
because a strict brace-ended prefix of a loadable document never loads),
and in the latter case strategy 3's greedy span recovers exactly the
document. -/
theorem fenced_json_extract_eq (j : String) (v : Json)
    (hv : jsonLoads j = some v)
    (hhead : j.data.head? = some '\x7b')
    (hlast : j.data.getLast? = some '\x7d') :
    parseResponse ("```json\n" ++ j ++ "\n```") = parseResponse j := by
  rcases hjd : j.data with _ | ⟨c0, jt⟩
  · rw [hjd] at hhead
    exact Option.noConfusion hhead
  · have hc0 : c0 = '\x7b' := by
      rw [hjd, List.head?_cons] at hhead
      exact Option.some.injEq .. |>.mp hhead
    subst hc0
    have hvj : jsonLoadsChars ('\x7b' :: jt) = some v := by
      rw [← hjd]
      exact hv
    have hjtne : jt ≠ [] := by
      intro hh
      rw [hjd, hh] at hlast
      exact absurd hlast (by decide)
    have hlast' : jt.getLast? = some '\x7d' := by
      rw [hjd] at hlast
      rcases jt with _ | ⟨a, at1⟩
      · exact absurd rfl hjtne
      · rw [List.getLast?_cons_cons] at hlast
        exact hlast
    have hpre2 : jt = jt.dropLast ++ ['\x7d'] :=
      (List.dropLast_append_getLast? _ hlast').symm
    have hsd : ("```json\n" ++ j ++ "\n```").data =
        "```json\n".data ++ (('\x7b' :: jt) ++ "\n```".data) := by
      rw [String.data_append, String.data_append, hjd, List.append_assoc]
    have h1 : jsonLoadsChars
        ("```json\n".data ++ (('\x7b' :: jt) ++ "\n```".data)) = none :=
      jsonLoadsChars_fenced_none _
    obtain ⟨cap, hrsf, pre, suf, hsplit, hcap, hcf⟩ :=
      reSearchFenced_fenced jt "\n```".data (by decide) ⟨jt.dropLast, hpre2⟩
    obtain ⟨suf1, hxs, hsuf1⟩ :=
      split_in_left '\x7d' "\n```".data (by decide) pre jt suf hsplit.symm
    have hrhs : parseResponseChars ('\x7b' :: jt) = some v := by
      simp only [parseResponseChars, hvj]
    rcases suf1 with _ | ⟨s0, ss⟩
    · have hcapj : cap = '\x7b' :: jt := by
        rw [hcap, hxs]
      have hl2 : jsonLoadsChars cap = some v := by
        rw [hcapj]
        exact hvj
      have hlhs : parseResponseChars
          ("```json\n".data ++ (('\x7b' :: jt) ++ "\n```".data)) = some v := by
        simp only [parseResponseChars, h1, hrsf, hl2]
      simp only [parseResponse]
      rw [hsd, hjd, hlhs, hrhs]
    · have hl2 : jsonLoadsChars cap = none := by
        rw [hcap]
        refine jsonLoads_obj_prefix_free (pre ++ ['\x7d']) (s0 :: ss) v ?_ ?_ ?_
        · rw [hxs] at hlast'
          have hgl : ('\x7d' :: (s0 :: ss)).getLast? = (s0 :: ss).getLast? :=
            List.getLast?_cons_cons
          rw [← hgl, ← List.getLast?_append_of_ne_nil pre
            (List.cons_ne_nil '\x7d' (s0 :: ss))]
          exact hlast'
        · rw [List.cons_append, List.append_assoc, List.singleton_append, ← hxs]
          exact hvj
        · rw [show ('\x7b' :: (pre ++ ['\x7d'])) = ('\x7b' :: pre) ++ ['\x7d'] from by
            rw [List.cons_append]]
          rw [List.getLast?_append_of_ne_nil ('\x7b' :: pre)
            (List.cons_ne_nil '\x7d' [])]
          rfl
      have hgr : reSearchGreedy
          ("```json\n".data ++ (('\x7b' :: jt) ++ "\n```".data)) =
          some ('\x7b' :: jt) := by
        rw [reSearchGreedy_skip_fence]
        exact reSearchGreedy_brace jt "\n```".data jt.dropLast hpre2 (by decide)
      have hlhs : parseResponseChars
          ("```json\n".data ++ (('\x7b' :: jt) ++ "\n```".data)) = some v := by
        simp only [parseResponseChars, h1, hrsf, hl2, hgr, hvj]
      simp only [parseResponse]
      rw [hsd, hjd, hlhs, hrhs]

theorem fenced_json_extract_eq_witness :
    jsonLoads (String.mk ['\x7b', '\x7d']) = some (Json.obj []) ∧
    parseResponse ("```json\n" ++ String.mk ['\x7b', '\x7d'] ++ "\n```") =
      parseResponse (String.mk ['\x7b', '\x7d']) :=
  ⟨rfl, fenced_json_extract_eq (String.mk ['\x7b', '\x7d']) (Json.obj [])
    rfl rfl rfl⟩


theorem containsClose_false_iff (cs : List Char) :
    containsClose cs = false ↔ ∀ c ∈ cs, c ≠ '}' := by
  induction cs with
  | nil => simp [containsClose]
  | cons c rest ih =>
    by_cases hc : c = '}' <;> simp [containsClose, hc, ih]

theorem lastBraceSplit_eq_none (cs : List Char)
    (h : containsClose cs = false) : lastBraceSplit cs = none := by
  induction cs with
  | nil => rfl
  | cons c rest ih =>
    rw [containsClose] at h
    by_cases hc : c = '}'
    · simp [hc] at h
    · simp only [hc, if_false] at h
      simp [lastBraceSplit, ih h, hc]

theorem noClose_hasSpanB_false (cs : List Char)
    (h : containsClose cs = false) : hasSpanB cs = false := by
  induction cs with
  | nil => rfl
  | cons c rest ih =>
    rw [containsClose] at h
    by_cases hc : c = '}'
    · simp [hc] at h
    · simp only [hc, if_false] at h
      by_cases hb : c = '{'
      · simp [hasSpanB, hb, h]
      · simp [hasSpanB, hb, ih h]

theorem hasSpanB_false_tail (c : Char) (rest : List Char)
    (h : hasSpanB (c :: rest) = false) : hasSpanB rest = false := by
  rw [hasSpanB] at h
  by_cases hb : c = '{'
  · simp only [hb, if_true] at h
    exact noClose_hasSpanB_false rest h
  · simpa [hb] using h

theorem reSearchGreedy_none (cs : List Char) (h : hasSpanB cs = false) :
    reSearchGreedy cs = none := by
  induction cs with
  | nil => rfl
  | cons c rest ih =>
    rw [hasSpanB] at h
    by_cases hb : c = '{'
    · simp only [hb, if_true] at h
      simp [reSearchGreedy, hb, lastBraceSplit_eq_none rest h]
    · simp only [hb, if_false] at h
      simp [reSearchGreedy, hb, ih h]

theorem lazyScan_some_close (cs acc cap : List Char)
    (h : lazyScan cs acc = some cap) : containsClose cs = true := by
  induction cs generalizing acc with
  | nil => simp [lazyScan] at h
  | cons c rest ih =>
    rw [lazyScan] at h
    by_cases hc : c = '}' ∧ closesFence rest = true
    · simp [containsClose, hc.1]
    · rw [if_neg hc] at h
      have := ih (c :: acc) h
      rw [containsClose]
      by_cases hb : c = '}' <;> simp [hb, this]

/-- A span-free text stays span-free after any prefix is removed
(`cs = a ++ u` and no span in `cs` gives no span in `u`). -/
theorem hasSpanB_false_append (a u : List Char)
    (h : hasSpanB (a ++ u) = false) : hasSpanB u = false := by
  induction a with
  | nil => exact h
  | cons c a' ih => exact ih (hasSpanB_false_tail c (a' ++ u) h)

theorem fencedBody_none (u : List Char) (h : hasSpanB u = false) :
    fencedBody u = none := by
  rw [fencedBody]
  unfold pySkipWs
  cases hw : u.dropWhile isPyWs with
  | nil => rfl
  | cons c r =>
    by_cases hb : c = '{'
    · subst hb
      have hsplit : u.takeWhile isPyWs ++ ('{' :: r) = u := by
        rw [← hw]
        exact List.takeWhile_append_dropWhile ..
      have hu : hasSpanB ('{' :: r) = false := by
        apply hasSpanB_false_append (u.takeWhile isPyWs)
        rw [hsplit]; exact h
      simp only [hasSpanB, if_pos rfl] at hu
      cases hscan : lazyScan r [] with
      | none => simp [hscan]
      | some cap =>
        have hcc := lazyScan_some_close r [] cap hscan
        rw [hcc] at hu
        simp at hu
    · simp [hb]

theorem matchFencedAt_none (cs : List Char) (h : hasSpanB cs = false) :
    matchFencedAt cs = none := by
  rw [matchFencedAt]
  by_cases h3 : cs.take 3 = fence
  · rw [if_pos h3]
    have hdrop3 : hasSpanB (cs.drop 3) = false := by
      apply hasSpanB_false_append (cs.take 3)
      rw [List.take_append_drop]; exact h
    by_cases h4 : (cs.drop 3).take 4 = "json".data
    · rw [if_pos h4]
      have hdrop7 : hasSpanB ((cs.drop 3).drop 4) = false := by
        apply hasSpanB_false_append ((cs.drop 3).take 4)
        rw [List.take_append_drop]; exact hdrop3
      rw [fencedBody_none _ hdrop7, fencedBody_none _ hdrop3]
    · rw [if_neg h4]
      exact fencedBody_none _ hdrop3
  · rw [if_neg h3]

theorem reSearchFenced_none (cs : List Char) (h : hasSpanB cs = false) :
    reSearchFenced cs = none := by
  induction cs with
  | nil => rfl
  | cons c rest ih =>
    rw [reSearchFenced, matchFencedAt_none _ h]
    exact ih (hasSpanB_false_tail c rest h)

/-! ## Claim theorems -/

/-- Claim C1: for every well-formed JSON string `s` (no markdown wrapping
needed — a wrapped string is not well-formed JSON), `_parse_response`
returns exactly `json.loads(s)`: strategy 1 succeeds and strategies 2 and
3 are never consulted (the definition returns before they are tried). -/
theorem parse_response_strategy1 (s : String) (v : Json)
    (h : jsonLoads s = some v) : parseResponse s = some v := by
  unfold jsonLoads at h
  unfold parseResponse parseResponseChars
  rw [h]

/-- Witness for C1 at the concrete well-formed JSON string `[1, 2]`. -/
theorem parse_response_strategy1_witness :
    parseResponse "[1, 2]" = some (Json.arr [Json.num ['1'], Json.num ['2']]) :=
  parse_response_strategy1 _ _ rfl

/-- Claim C2: `move_and_click` always issues its pointer move to the
clamped target `(max 0 (min x (w-1)), max 0 (min y (h-1)))`; with bounds
`(1920, 1080)` and recommendation `(5000, -50)` the move target is
`(1919, 0)`.  It never throws on out-of-range input: it is a total
function of its arguments. -/
theorem move_and_click_clamps (x y : Int) (action : Json) (w h : Int) :
    (move_and_click x y action w h).head? =
      some (PointerCmd.moveTo (max 0 (min x (w - 1))) (max 0 (min y (h - 1)))) ∧
    move_and_click 5000 (-50) (Json.str (strCodes "click")) 1920 1080 =
      [PointerCmd.moveTo 1919 0, PointerCmd.click] := by
  exact ⟨rfl, by decide⟩

/-- Claim C5 (restricted to `recommended` being absent, `null`, or an
object — the data model's `optional Recommendation`): `execute` issues no
pointer command and returns without error when `recommended` is missing
or when its `x` or `y` answers `None` to `.get`. -/
theorem execute_skips_without_coords (w h : Int)
    (pairs : List (List Nat × Json))
    (hmiss : dictFind pairs (strCodes "recommended") = none ∨
      dictFind pairs (strCodes "recommended") = some Json.null ∨
      ∃ rp, dictFind pairs (strCodes "recommended") = some (Json.obj rp) ∧
        ((pyGet rp (strCodes "x")).isNullB = true ∨
         (pyGet rp (strCodes "y")).isNullB = true)) :
    execute w h (Json.obj pairs) = Except.ok [] := by
  rcases hmiss with hn | hnull | ⟨rp, hrp, hxy⟩
  · simp [execute, pyGet, hn, pyFalsy]
  · simp [execute, pyGet, hnull, pyFalsy]
  · have hfind : pyGet pairs (strCodes "recommended") = Json.obj rp := by
      simp [pyGet, hrp]
    simp only [execute, hfind]
    by_cases hf : pyFalsy (Json.obj rp) = true
    · simp [hf]
    · simp only [Bool.not_eq_true] at hf
      simp only [hf, Bool.false_eq_true, if_false]
      rcases hxy with hx | hy
      · simp [hx]
      · simp [hy]

/-- Witness for C5: a parsed analysis whose recommendation lacks `y`
produces no pointer command and no error. -/
theorem execute_skips_without_coords_witness :
    execute 1920 1080 (Json.obj pairsMissingY) = Except.ok [] :=
  execute_skips_without_coords 1920 1080 pairsMissingY
    (Or.inr (Or.inr ⟨[(strCodes "x", Json.num ['5'])], rfl, Or.inr rfl⟩))

/-- Claim C6: `start()` while already running only logs (no thread is
spawned and the state is unchanged), so two consecutive `start()` calls
without an intervening `stop()` leave exactly one live background thread
and the running state. -/
theorem start_idempotent (e : Engine) :
    ((e.start).1.start).1 = (e.start).1 ∧ ((e.start).1.start).2 = false ∧
    (e.running = false → e.active = 0 →
      ((e.start).1.start).1.running = true ∧ ((e.start).1.start).1.active = 1) := by
  cases h : e.running <;>
    simp_all [Engine.start]

/-- Witness for C6 from the freshly initialized engine. -/
theorem start_idempotent_witness :
    ((Engine.init.start).1.start).1.running = true ∧
      ((Engine.init.start).1.start).1.active = 1 ∧
      ((Engine.init.start).1.start).2 = false :=
  ⟨((start_idempotent Engine.init).2.2 rfl rfl).1,
   ((start_idempotent Engine.init).2.2 rfl rfl).2,
   (start_idempotent Engine.init).2.1⟩

/-- Claim C7: no per-cycle failure ever terminates the loop.  The number
of executed ticks depends only on the stop-flag schedule, never on the
cycle outcomes (capture exception, transport error, unparseable
response); each failing tick is logged (error at the tick boundary, or
the no-analysis warning) and the loop proceeds. -/
theorem loop_survives_cycle_failures (w h : Int)
    (script : List (TickInput × Bool)) :
    (loopRun w h script).length = stopLen (script.map Prod.snd) ∧
    tickBody w h TickInput.captureRaises = [TickEvent.cycleErrorLogged] ∧
    tickBody w h TickInput.llmError = [TickEvent.noAnalysisWarned] ∧
    (∀ raw, parseResponseChars raw.data = none →
      tickBody w h (TickInput.llmRaw raw) = [TickEvent.noAnalysisWarned]) := by
  refine ⟨?_, rfl, rfl, ?_⟩
  · induction script with
    | nil => rfl
    | cons head tail ih =>
      obtain ⟨inp, stopFlag⟩ := head
      cases stopFlag
      · simp only [loopRun, stopLen, List.length_cons, List.map_cons, if_false,
          Bool.false_eq_true, ih]
        omega
      · simp [loopRun, stopLen, ih]
  · intro raw hraw
    simp [tickBody, hraw]

/-- Witness for C7: a three-tick script whose first two cycles fail and
whose third stops the loop still executes exactly three ticks, and an
unparseable reply is only warned about. -/
theorem loop_survives_cycle_failures_witness :
    (loopRun 1920 1080 [(TickInput.captureRaises, false),
       (TickInput.llmError, false), (TickInput.llmRaw "junk", true)]).length = 3 ∧
    tickBody 1920 1080 (TickInput.llmRaw "junk") = [TickEvent.noAnalysisWarned] :=
  ⟨(loop_survives_cycle_failures 1920 1080 _).1.trans (by decide),
   (loop_survives_cycle_failures 1920 1080
      [(TickInput.llmRaw "junk", true)]).2.2.2 "junk" rfl⟩

/-- Claim C8 counterexample: from the idle system, the global-hotkey
start trigger transitions the engine to running but leaves the status
indicator showing STOPPED — the hotkey callbacks never call
`_update_icon`. -/
theorem hotkey_start_leaves_icon_stale :
    (handleTrigger Trigger.hotkeyStart ⟨Engine.init, false⟩).engine.running = true ∧
    (handleTrigger Trigger.hotkeyStart ⟨Engine.init, false⟩).iconRunning = false := by
  decide

/-- Claim C8 amended: transitions triggered from the tray menu update the
status indicator synchronously to the engine's current state; transitions
triggered by a global hotkey leave the indicator untouched. -/
theorem trigger_icon_sync (t : Trigger) (s : Sys) :
    ((t = Trigger.trayStart ∨ t = Trigger.trayStop) →
      (handleTrigger t s).iconRunning = (handleTrigger t s).engine.running) ∧
    ((t = Trigger.hotkeyStart ∨ t = Trigger.hotkeyStop) →
      (handleTrigger t s).iconRunning = s.iconRunning) := by
  cases t <;> simp [handleTrigger]

/-- Witness for the amended C8 at the tray start trigger from idle. -/
theorem trigger_icon_sync_witness :
    (handleTrigger Trigger.trayStart ⟨Engine.init, false⟩).iconRunning =
      (handleTrigger Trigger.trayStart ⟨Engine.init, false⟩).engine.running :=
  (trigger_icon_sync Trigger.trayStart ⟨Engine.init, false⟩).1 (Or.inl rfl)

/-- Claim C9: `encode_image` copies before downscaling, so the caller's
image cell is untouched: after the call the original reference holds the
same dimensions and pixel contents as before. -/
theorem encode_image_preserves_input (h : Heap) (r : Nat) (hr : r < h.length) :
    (encode_image h r).1.getD r ⟨0, 0, []⟩ = h.getD r ⟨0, 0, []⟩ := by
  unfold encode_image imageCopy imageThumbnailAt heapGet
  simp only
  rw [List.getD_eq_getElem?_getD, List.getD_eq_getElem?_getD]
  rw [List.getElem?_set_ne (by omega)]
  rw [List.getElem?_append_left hr]

/-- Witness for C9: a 2560×1440 image (which the thumbnail step shrinks)
is unchanged at its original reference. -/
theorem encode_image_preserves_input_witness :
    (encode_image [⟨2560, 1440, [[1, 2], [3, 4]]⟩] 0).1.getD 0 ⟨0, 0, []⟩ =
      [(⟨2560, 1440, [[1, 2], [3, 4]]⟩ : PILImage)].getD 0 ⟨0, 0, []⟩ :=
  encode_image_preserves_input [⟨2560, 1440, [[1, 2], [3, 4]]⟩] 0 (by decide)

/-- Claim C4 counterexample: `"42"` contains no `{`…`}` span, yet
`_parse_response` does not return `None` — strategy 1 already succeeds,
because `json.loads` accepts any JSON document, not only objects. -/
theorem bare_number_no_span_parses :
    hasSpanB "42".data = false ∧ parseResponse "42" = some (Json.num ['4', '2']) :=
  ⟨rfl, rfl⟩

/-- Helper shared by the C4 and C10 theorems: when `_parse_response`
answers `None`, every one of the three strategies' parses failed. -/
theorem parseResponseChars_none_all_fail (cs : List Char)
    (hnone : parseResponseChars cs = none) :
    jsonLoadsChars cs = none ∧
    (∀ cap, reSearchFenced cs = some cap → jsonLoadsChars cap = none) ∧
    (∀ cap, reSearchGreedy cs = some cap → jsonLoadsChars cap = none) := by
  unfold parseResponseChars at hnone
  cases h1 : jsonLoadsChars cs with
  | some v => simp [h1] at hnone
  | none =>
    simp only [h1] at hnone
    refine ⟨rfl, ?_, ?_⟩
    · intro cap hcap
      simp only [hcap] at hnone
      cases h3 : jsonLoadsChars cap with
      | none => rfl
      | some v => simp [h3] at hnone
    · intro cap hcap
      cases h2 : reSearchFenced cs with
      | none =>
        simp only [h2, hcap] at hnone
        exact hnone
      | some capf =>
        simp only [h2] at hnone
        cases h3 : jsonLoadsChars capf with
        | some v => simp [h3] at hnone
        | none =>
          simp only [h3, hcap] at hnone
          exact hnone

/-- Claim C4 amended: for every input string that contains no `{`…`}`
span and is not itself a well-formed JSON document, `_parse_response`
returns `None`; and `None` is returned only when all three strategies
(whole-string parse, fenced-block parse, greedy brace-span parse) have
failed. -/
theorem no_span_parse_failure (s : String) :
    (hasSpanB s.data = false → jsonLoads s = none → parseResponse s = none) ∧
    (parseResponse s = none →
      jsonLoads s = none ∧
      (∀ cap, reSearchFenced s.data = some cap → jsonLoadsChars cap = none) ∧
      (∀ cap, reSearchGreedy s.data = some cap → jsonLoadsChars cap = none)) := by
  constructor
  · intro hspan hload
    unfold jsonLoads at hload
    unfold parseResponse parseResponseChars
    rw [hload, reSearchFenced_none s.data hspan, reSearchGreedy_none s.data hspan]
  · exact parseResponseChars_none_all_fail s.data

/-- Witness for the amended C4: a plain prose reply with no brace span
yields `ParseFailure`. -/
theorem no_span_parse_failure_witness : parseResponse "no json here" = none :=
  (no_span_parse_failure "no json here").1 rfl rfl

/-- Claim C10: `_parse_response` is total — for every input string it
returns either a parsed JSON value (obtained by one of the three
strategies) or `None`, and `None` only after every strategy's parse
failed; every decode failure is absorbed internally (the embedding is a
total function; Python-level stack/memory exhaustion is outside the
model). -/
theorem parse_response_total (s : String) :
    (parseResponse s = none →
      jsonLoads s = none ∧
      (∀ cap, reSearchFenced s.data = some cap → jsonLoadsChars cap = none) ∧
      (∀ cap, reSearchGreedy s.data = some cap → jsonLoadsChars cap = none)) ∧
    (∀ j, parseResponse s = some j →
      jsonLoads s = some j ∨
      (∃ cap, reSearchFenced s.data = some cap ∧ jsonLoadsChars cap = some j) ∨
      (∃ cap, reSearchGreedy s.data = some cap ∧ jsonLoadsChars cap = some j)) := by
  constructor
  · exact parseResponseChars_none_all_fail s.data
  · intro j hj
    unfold parseResponse parseResponseChars at hj
    unfold jsonLoads
    cases h1 : jsonLoadsChars s.data with
    | some v =>
      simp only [h1, Option.some.injEq] at hj
      left
      rw [hj]
    | none =>
      simp only [h1] at hj
      right
      cases h2 : reSearchFenced s.data with
      | some capf =>
        simp only [h2] at hj
        cases h3 : jsonLoadsChars capf with
        | some v =>
          simp only [h3, Option.some.injEq] at hj
          exact Or.inl ⟨capf, rfl, by rw [h3, hj]⟩
        | none =>
          simp only [h3] at hj
          right
          cases h4 : reSearchGreedy s.data with
          | some capg =>
            simp only [h4] at hj
            exact ⟨capg, rfl, hj⟩
          | none => simp [h4] at hj
      | none =>
        simp only [h2] at hj
        right
        cases h4 : reSearchGreedy s.data with
        | some capg =>
          simp only [h4] at hj
          exact ⟨capg, rfl, hj⟩
        | none => simp [h4] at hj

/-- Witness for C10 at a concrete unparseable reply. -/
theorem parse_response_total_witness : jsonLoads "nope" = none :=
  ((parse_response_total "nope").1 rfl).1
